import Mathlib

/-!
Verification development for the chart-specification compiler and reactive
runtime of the embedding-atlas viewer (packages/viewer/src/charts).

The definitions below are a shallow embedding of the TypeScript source:
`DataValue`, `DataTable`, `stack` and `mergeScaleHints` from
charts/chart_types.ts (runtime part), `computeFieldStats` result types and
`inferAggregate` from charts/common/aggregate.ts, `buildEncoding` from the
runtime, and the count-plot selection logic from charts/basic/CountPlot.
JavaScript numbers are modelled as rationals plus an explicit non-finite
value; JavaScript `undefined`/`null` become `Option` or dedicated
constructors; SQL expression builders from mosaic-sql become constructors of
an `Expr` AST.
-/

namespace EmbeddingAtlas

/-- A value in a result table. Mirrors `DataValue` in the chart runtime:
`string | number | [number, number] | null | undefined`. Finite numbers are
rationals; `nan` stands for the non-finite numbers (NaN, Infinity). -/
inductive DataValue where
  | str (s : String)
  | num (q : ℚ)
  | nan
  | interval (a b : ℚ)
  | null
  | undefV
deriving DecidableEq, Repr

/-- Grouping key produced by `JSON.stringify` of a `DataValue`.
`JSON.stringify` renders both `null` and `NaN` as the string "null", so `nan`
and `null` share a key; `JSON.stringify(undefined)` is the value `undefined`,
its own key; the runtime uses the empty-string key when the grouping column is
absent. -/
inductive JKey where
  | jstr (s : String)
  | jnum (q : ℚ)
  | jnull
  | jintv (a b : ℚ)
  | jundefV
  | jempty
deriving DecidableEq, Repr

def keyOf : DataValue → JKey
  | .str s => .jstr s
  | .num q => .jnum q
  | .nan => .jnull
  | .interval a b => .jintv a b
  | .null => .jnull
  | .undefV => .jundefV

/-- SQL expression AST: the mosaic-sql node constructors used by the chart
code. A logical node keeps its argument list; the mosaic-sql `and`/`or`
helpers collapse a one-element list to the single clause, which `SQLand` and
`SQLor` below mirror. -/
inductive Expr where
  | column (name : String)
  | litStr (s : String)
  | litNum (q : ℚ)
  | litBool (b : Bool)
  | litNull
  | count
  | aggFn (fn : String) (arg : Expr) (filterWhere : Option Expr)
  | quantileFn (arg : Expr) (q : ℚ) (filterWhere : Option Expr)
  | rawSql (sql : String)
  | castE (e : Expr) (ty : String)
  | isFiniteE (e : Expr)
  | isNullE (e : Expr)
  | isNotNullE (e : Expr)
  | notE (e : Expr)
  | andL (args : List Expr)
  | orL (args : List Expr)
  | isBetween (e : Expr) (lo hi : ℚ)
  | isIn (e : Expr) (vals : List Expr)
  | isNotDistinct (a b : Expr)
  | condE (c t f : Expr)
  | floorE (e : Expr)
  | mulE (a b : Expr)
  | subE (a b : Expr)
  | gtE (a b : Expr)
  | ecdfValueSelect (arg : Expr)
  | ecdfRankSelect
deriving Repr

/-- mosaic-sql `or(...clauses)`: a single clause is returned as is, otherwise
a logical OR node over the list (also when the list is empty). -/
def SQLor (l : List Expr) : Expr :=
  match l with
  | [p] => p
  | _ => Expr.orL l

/-- mosaic-sql `and(...clauses)`: a single clause is returned as is, otherwise
a logical AND node over the list (also when the list is empty). -/
def SQLand (l : List Expr) : Expr :=
  match l with
  | [p] => p
  | _ => Expr.andL l

/-- An `AggregateValue | AggregateValue[]` argument of a predicate builder:
one display value, or a JS array of display values. A two-element numeric JS
array is a `single (interval a b)`; `arr` is any other array shape. -/
inductive AggValue where
  | single (v : DataValue)
  | arr (l : List DataValue)
deriving DecidableEq, Repr

/-- `DataTable` from the chart runtime: row count plus named columns. -/
structure DataTable where
  length : Nat
  columns : List (String × List DataValue)
deriving DecidableEq, Repr

/-- `data.columns[name]`: `none` models the JS `undefined` lookup. -/
def DataTable.col (t : DataTable) (name : String) : Option (List DataValue) :=
  (t.columns.find? (fun p => p.1 == name)).map (·.2)

/-! ### `stack` (chart runtime, mark shaping) -/

/-- Comparator maps supplied to `stack`: iteration order is object key
insertion order, modelled by the list order. -/
abbrev OrderFns := List (String × (DataValue → DataValue → ℚ))

/-- One step of the grouping loop in `stack`: append row index `i` to the
entry for key `k`, or start a new entry (JS `Map` preserves insertion
order). -/
def groupInsert (m : List (JKey × List Nat)) (k : JKey) (i : Nat) :
    List (JKey × List Nat) :=
  if (m.find? (fun p => p.1 == k)).isSome then
    m.map (fun p => if p.1 == k then (p.1, p.2 ++ [i]) else p)
  else
    m ++ [(k, [i])]

/-- The grouping loop of `stack`: rows indexed `0..n-1`, keyed by the
stringified value of the grouping column (empty key when the column is
absent). -/
def groupRows (keycol : Option (List DataValue)) (n : Nat) :
    List (JKey × List Nat) :=
  (List.range n).foldl
    (fun m i =>
      let k := match keycol with
        | some col => keyOf (col.getD i .undefV)
        | none => JKey.jempty
      groupInsert m k i)
    []

/-- The sort comparator used inside `stack`: first non-zero result of the
supplied comparators wins (comparators whose column is missing are skipped),
ties fall back to the difference of the original row indices. -/
def stackCompare (orders : OrderFns) (data : DataTable) (i j : Nat) : ℚ :=
  match orders with
  | [] => (i : ℚ) - (j : ℚ)
  | (k, f) :: rest =>
    match data.col k with
    | none => stackCompare rest data i j
    | some col =>
      let r := f (col.getD i .undefV) (col.getD j .undefV)
      if r ≠ 0 then r else stackCompare rest data i j

def insertSorted (le : Nat → Nat → Bool) (x : Nat) : List Nat → List Nat
  | [] => [x]
  | y :: ys => if le x y then x :: y :: ys else y :: insertSorted le x ys

/-- `Array.prototype.sort` with the strict total comparator built by `stack`
(ties always resolve by index), modelled as insertion sort: for such a
comparator any correct sort returns the same permutation. -/
def sortIdx (le : Nat → Nat → Bool) : List Nat → List Nat
  | [] => []
  | x :: xs => insertSorted le x (sortIdx le xs)

/-- The accumulation loop of `stack` over one sorted group: a finite value is
replaced by its cumulative `[start, end]` interval and added to the running
sum; any other value is replaced by `null` and skipped. -/
def stackLoop (entry : List Nat) (csum : ℚ) (col : List DataValue) :
    List DataValue :=
  match entry with
  | [] => col
  | i :: rest =>
    match col.getD i .undefV with
    | .num v => stackLoop rest (csum + v) (col.set i (.interval csum (csum + v)))
    | _ => stackLoop rest csum (col.set i .null)

/-- `stack(data, by, orders)` from the chart runtime. Returns `none` exactly
when the JS code would throw (the stacked field column is absent, so
`data.columns[field].slice()` fails). -/
def stack (data : DataTable) (byAxis : String) (orders : OrderFns) :
    Option DataTable :=
  let field := if byAxis = "x" then "y" else "x"
  let groups := groupRows (data.col byAxis) data.length
  match data.col field with
  | none => none
  | some fieldCol =>
    let newCol := groups.foldl
      (fun col (p : JKey × List Nat) =>
        let sorted := sortIdx
          (fun i j => decide (stackCompare orders data i j ≤ 0)) p.2
        stackLoop sorted 0 col)
      fieldCol
    some { length := data.length,
           columns := data.columns.map
             (fun p => if p.1 = field then (p.1, newCol) else p) }

/-- Follows the words of the spec (section 4.5 / scenario 5): each row value
is replaced by its cumulative [start, end] interval; non-finite values are
excluded from the running sum and their own interval is marked null, never
coerced to zero. -/
def stackSpecList (c : ℚ) : List DataValue → List DataValue
  | [] => []
  | .num q :: rest => .interval c (c + q) :: stackSpecList (c + q) rest
  | _ :: rest => .null :: stackSpecList c rest

/-- Well-formedness of the grouping map built by `groupRows`: distinct keys,
row indices below the row count, each entry ascending in original row order
(hence duplicate-free), and entries pairwise disjoint. -/
def GroupsOK (m : List (JKey × List Nat)) (n : Nat) : Prop :=
  (m.map Prod.fst).Nodup ∧
  (∀ p ∈ m, ∀ i ∈ p.2, i < n) ∧
  (∀ p ∈ m, p.2.Pairwise (· < ·)) ∧
  m.Pairwise (fun p q => ∀ i ∈ p.2, i ∉ q.2)

/-! ### `mergeScaleHints` (chart runtime) -/

/-- JS `new Set(list)` iteration order: first occurrence wins. -/
def setDedup (l : List String) : List String :=
  l.foldl (fun acc x => if x ∈ acc then acc else acc ++ [x]) []

/-- `x.trim() != ""`: the string has some non-whitespace character. -/
def jsTrimNonEmpty (s : String) : Bool :=
  s.toList.any (fun c => !(c == ' ' || c == '\t' || c == '\n' || c == '\r'))

/-- `ScaleHints` from the chart runtime. -/
structure ScaleHints where
  kind : String
  type : Option String := none
  domain : Option (List DataValue) := none
  specialValues : Option (List String) := none
  includeZero : Option Bool := none
  title : Option String := none
  predicate : Option (AggValue → Option Expr) := none

/-- `mergeScaleHints(current, value)` from the chart runtime. -/
def mergeScaleHints (current value : ScaleHints) : ScaleHints :=
  let titles := setDedup
    (([current.title, value.title].filterMap id).filter jsTrimNonEmpty)
  { kind := value.kind
    type := current.type.orElse (fun _ => value.type)
    domain := some ((current.domain.getD []) ++ (value.domain.getD []))
    specialValues :=
      some ((current.specialValues.getD []) ++ (value.specialValues.getD []))
    title :=
      if titles.length > 0 then some (String.intercalate ", " titles) else none
    includeZero :=
      if current.includeZero = some true ∨ value.includeZero = some true
      then some true else none
    predicate := current.predicate.orElse (fun _ => value.predicate) }

/-- The domain carried by a scale hint (`hints.domain ?? []`). -/
def ScaleHints.domainList (h : ScaleHints) : List DataValue := h.domain.getD []

/-! ### `inferScale` (chart runtime) -/

/-- The finite numbers of a value list: the accessor passed to d3.extent in
`finiteExtent` keeps a value iff `typeof x == "number" && isFinite(x)`. -/
def finiteNums (vals : List DataValue) : List ℚ :=
  vals.filterMap (fun v => match v with | .num q => some q | _ => none)

/-- JS `Array.prototype.flat()` (one level): an `[number, number]` entry
contributes both endpoints, other values pass through. -/
def flatVals (vals : List DataValue) : List DataValue :=
  vals.flatMap (fun v => match v with
    | .interval a b => [.num a, .num b]
    | v => [v])

/-- One accumulation step of d3.extent. -/
def extStep (acc : Option (ℚ × ℚ)) (x : ℚ) : Option (ℚ × ℚ) :=
  match acc with
  | none => some (x, x)
  | some (m, M) => some (min m x, max M x)

/-- d3.extent over a list of numbers. -/
def listExtent (l : List ℚ) : Option (ℚ × ℚ) := l.foldl extStep none

/-- Merge of two extents (used to relate nested extent computations). -/
def extMerge : Option (ℚ × ℚ) → Option (ℚ × ℚ) → Option (ℚ × ℚ)
  | none, e => e
  | some p, none => some p
  | some (a, b), some (c, d) => some (min a c, max b d)

/-- `finiteExtent(values)` from the chart runtime: d3.extent restricted to
finite numbers, as a pair whose components are both `undefined` when no
finite value exists. -/
def finiteExtent (vals : List DataValue) : Option ℚ × Option ℚ :=
  match listExtent (finiteNums vals) with
  | none => (none, none)
  | some (m, M) => (some m, some M)

/-- A JS extent component as a data value (`undefined` when absent). -/
def optToDV : Option ℚ → DataValue
  | some q => .num q
  | none => .undefV

/-- Per-channel `Scale` overrides from the chart spec. -/
structure Scale where
  type : Option String := none
  domain : Option (List DataValue) := none
  constant : Option ℚ := none
  range : Option (List DataValue) := none

/-- `ScaleConfig` produced by `inferScale`. -/
structure ScaleConfig where
  type : String
  domain : List DataValue
  specialValues : Option (List String) := none
  constant : Option ℚ := none
  range : Option (List DataValue) := none

/-- Strings of a value list (the nominal branch filter). -/
def strVals (vals : List DataValue) : List String :=
  vals.filterMap (fun v => match v with | .str s => some s | _ => none)

/-- `inferScale(spec, hints, data, channel)` from the chart runtime. -/
def inferScale (spec : Scale) (hints : ScaleHints)
    (data : List (List DataValue)) (channel : String) : ScaleConfig :=
  if hints.kind = "quantitative" then
    let parts : List DataValue :=
      (((hints.domain.getD []) :: data).map (fun vals =>
        [optToDV (finiteExtent (flatVals vals)).1,
         optToDV (finiteExtent (flatVals vals)).2])).flatten
    let mM0 : ℚ × ℚ :=
      match finiteExtent parts with
      | (some m, some M) => (m, M)
      | _ => (0, 1)
    let mM1 : ℚ × ℚ :=
      if mM0.1 = mM0.2 then
        if mM0.1 > 0 then (0, mM0.2)
        else if mM0.1 < 0 then (mM0.1, 0)
        else (mM0.1, 1)
      else mM0
    let mM2 : ℚ × ℚ :=
      if channel = "size" ∨ hints.includeZero = some true then
        if mM1.1 > 0 then (0, mM1.2)
        else if mM1.2 < 0 then (mM1.1, 0)
        else mM1
      else mM1
    { type := (spec.type.orElse fun _ => hints.type).getD "linear"
      domain := spec.domain.getD [DataValue.num mM2.1, DataValue.num mM2.2]
      specialValues := hints.specialValues
      constant := spec.constant
      range := spec.range }
  else if hints.kind = "nominal" then
    let parts :=
      (((hints.domain.getD []) :: data).map
        (fun x => setDedup (strVals (flatVals x)))).flatten
    let stringValues :=
      (setDedup parts).filter
        (fun x => !((hints.specialValues.getD []).contains x))
    { type := (spec.type.orElse fun _ => hints.type).getD "band"
      domain := spec.domain.getD (stringValues.map DataValue.str)
      specialValues := hints.specialValues
      range := spec.range }
  else
    { type := "linear", domain := [DataValue.num 0, DataValue.num 1] }

/-- The finite values a quantitative channel observes: the hint domain
together with all layer columns, with interval values contributing both
endpoints. -/
def channelFiniteValues (hints : ScaleHints) (data : List (List DataValue)) :
    List ℚ :=
  finiteNums (flatVals (hints.domainList ++ data.flatten))

/-! ### `computeFieldStats` result model and `inferAggregate`
    (charts/common/aggregate.ts) -/

/-- Quantitative field statistics (`FieldStats.quantitative`): count, min,
max, mean and median of the finite values, the minimum positive finite value,
and the number of non-finite (inf, nan, null) values. -/
structure QuantStats where
  count : Nat
  min : ℚ
  max : ℚ
  mean : ℚ
  median : ℚ
  minPositive : ℚ
  countNonFinite : Nat
deriving DecidableEq, Repr

/-- One level of the nominal statistics (value and row count). -/
structure NomLevel where
  value : String
  count : Nat
deriving DecidableEq, Repr

/-- Nominal field statistics (`FieldStats.nominal`): the top-k levels in
descending count order, the number of levels beyond them, the number of rows
in those further levels, and the number of null rows. -/
structure NomStats where
  levels : List NomLevel
  numOtherLevels : Nat
  otherCount : Nat
  nullCount : Nat
deriving DecidableEq, Repr

/-- `FieldStats` from aggregate.ts. -/
structure FieldStats where
  field : Expr
  quantitative : Option QuantStats := none
  nominal : Option NomStats := none

/-- `AggregateInfo` from aggregate.ts. -/
structure AggregateInfo where
  select : Expr
  scale : ScaleConfig
  field : DataValue → DataValue
  predicate : AggValue → Option Expr
  order : DataValue → DataValue → ℚ

/-- The scale part of a `Binning` (from charts/common/binning.js). -/
structure BinningScale where
  type : String
  constant : Option ℚ := none
  expr : Expr → ℚ → Expr
  forward : ℚ → ℚ → ℚ
  reverse : ℚ → ℚ → ℚ

/-- A `Binning` (from charts/common/binning.js). -/
structure Binning where
  scale : BinningScale
  binSize : ℚ
  binStart : ℚ

/-- Modelled from the spec: `inferBinning` lives in charts/common/binning.js,
which is not among the provided sources. Spec section 4.2 describes it as
choosing bin width and start by a scale-aware nice-boundary policy for the
desired bin count. The model honours the requested scale type, defaulting to
linear — the part the claims depend on — and abstracts the numeric
nice-boundary policy as the identity transform with unit bins from zero. -/
def inferBinning (stats : QuantStats) (scaleType : Option String)
    (desiredCount : Nat) : Binning :=
  { scale :=
      { type := scaleType.getD "linear"
        constant := none
        expr := fun e _ => e
        forward := fun x _ => x
        reverse := fun x _ => x }
    binSize := 1
    binStart := 0 }

/-- `valueToPredicate` of the quantitative branch applied to one
AggregateValue: the "n/a" string selects the non-finite|null rows, a
two-element numeric array becomes a BETWEEN, anything else falls through to
`literal(false)`. -/
def qSinglePredicate (input : Expr) : DataValue → Expr
  | .str s =>
    if s = "n/a" then
      SQLor [Expr.notE (Expr.isFiniteE input), Expr.isNullE input]
    else Expr.litBool false
  | .interval a b => Expr.isBetween input (min a b) (max a b)
  | _ => Expr.litBool false

/-- `valueToPredicate` of the quantitative branch: an array that is not a
two-element numeric pair becomes the disjunction of its element
predicates. -/
def qValueToPredicate (input : Expr) : AggValue → Expr
  | .single v => qSinglePredicate input v
  | .arr l =>
    match l with
    | [.num v1, .num v2] => Expr.isBetween input (min v1 v2) (max v1 v2)
    | [.num _, _] => Expr.litBool false
    | _ => SQLor (l.map (qSinglePredicate input))

/-- The dynamic "(N others)" bucket label. `toLocaleString` is modelled as
plain decimal rendering (no locale grouping separators). -/
def otherLabel (n : Nat) : String := "(" ++ toString n ++ " others)"

/-- mosaic-sql `literal` on the scalar values that can reach it here;
non-scalar literals are modelled coarsely by their rendering. -/
def litOf : DataValue → Expr
  | .str s => Expr.litStr s
  | .num q => Expr.litNum q
  | .null => Expr.litNull
  | v => Expr.rawSql (reprStr v)

/-- The inner `predicate` closure of the nominal branch: the null label
selects null rows, the others label selects non-null rows outside the kept
levels, and any other value compares with IS NOT DISTINCT FROM. -/
def nomInnerPredicate (inputExpr : Expr) (levels : List NomLevel)
    (nullRepr otherRepr : String) (d : DataValue) : Expr :=
  if d = DataValue.str nullRepr then Expr.isNullE inputExpr
  else if d = DataValue.str otherRepr then
    SQLand [Expr.notE (Expr.isIn inputExpr
      (levels.map (fun l => Expr.litStr l.value))),
      Expr.isNotNullE inputExpr]
  else Expr.isNotDistinct inputExpr (litOf d)

/-- JS `Array.prototype.indexOf`: first index, or -1 when absent. -/
def jsIndexOf (l : List String) (s : String) : ℤ :=
  match l.findIdx? (fun x => x == s) with
  | some i => (i : ℤ)
  | none => -1

/-- The level-clipping step of the nominal branch of `inferAggregate`
(aggregate.ts): with more levels than binCount, the level list is clipped to
the first binCount levels, the excess level count is added to
numOtherLevels, and otherCount is replaced by the sum of the counts of the
clipped-off listed levels. -/
def nominalClip (nom : NomStats) (binCount : Nat) : NomStats :=
  if nom.levels.length > binCount then
    { levels := nom.levels.take binCount
      numOtherLevels := nom.numOtherLevels + (nom.levels.length - binCount)
      otherCount := (nom.levels.drop binCount).foldl
        (fun a b => a + b.count) 0
      nullCount := nom.nullCount }
  else nom

/-- `inferAggregate({stats, scaleType, binCount})` from aggregate.ts. The
quantitative branch uses the spec-modelled `inferBinning`. -/
def inferAggregate (stats : FieldStats) (scaleType : Option String)
    (binCount : Option Nat) : Option AggregateInfo :=
  match stats.quantitative with
  | some q =>
    let binning := inferBinning q scaleType (binCount.getD 20)
    let inputExpr : Expr := Expr.castE stats.field "DOUBLE"
    let expr := binning.scale.expr inputExpr (binning.scale.constant.getD 0)
    let binExpr := Expr.floorE (Expr.mulE
      (Expr.subE expr (Expr.litNum binning.binStart))
      (Expr.litNum (1 / binning.binSize)))
    let select :=
      if binning.scale.type = "log" then
        Expr.condE
          (SQLand [Expr.isFiniteE inputExpr,
            Expr.gtE inputExpr (Expr.litNum 0)])
          binExpr Expr.litNull
      else
        Expr.condE (Expr.isFiniteE inputExpr) binExpr Expr.litNull
    let valueToBinIndex : ℚ → ℚ := fun x =>
      ((⌊(binning.scale.forward x (binning.scale.constant.getD 0) -
          binning.binStart) / binning.binSize⌋ : ℤ) : ℚ)
    let binIndexToValue : ℚ → ℚ := fun idx =>
      binning.scale.reverse (idx * binning.binSize + binning.binStart)
        (binning.scale.constant.getD 0)
    let bin0 := valueToBinIndex
      (if binning.scale.type = "log" then q.minPositive else q.min)
    let bin1 := valueToBinIndex q.max
    let domain := [DataValue.num (binIndexToValue bin0),
                   DataValue.num (binIndexToValue (bin1 + 1))]
    let hasNA : Bool :=
      decide (0 < q.countNonFinite ∨
        (binning.scale.type = "log" ∧ q.min < 0))
    some
      { select := select
        scale :=
          { type := binning.scale.type
            constant := binning.scale.constant
            domain := domain
            specialValues := some (if hasNA then ["n/a"] else []) }
        predicate := fun v => some (qValueToPredicate inputExpr v)
        order := fun a b =>
          let xa : ℚ × ℚ := match a with
            | .str _ => (1, 0)
            | .interval lo _ => (0, lo)
            | _ => (0, 0)
          let xb : ℚ × ℚ := match b with
            | .str _ => (1, 0)
            | .interval lo _ => (0, lo)
            | _ => (0, 0)
          if xa.1 ≠ xb.1 then xa.1 - xb.1 else xa.2 - xb.2
        field := fun v => match v with
          | .num i => DataValue.interval (binIndexToValue i)
              (binIndexToValue (i + 1))
          | .null => DataValue.str "n/a"
          | .undefV => DataValue.str "n/a"
          | _ => DataValue.nan }
  | none =>
    match stats.nominal with
    | some nom =>
      let clipped := nominalClip nom (binCount.getD 15)
      let otherRepr := otherLabel clipped.numOtherLevels
      let nullRepr := "(null)"
      let inputExpr := Expr.castE stats.field "TEXT"
      let select := Expr.condE
        (Expr.isIn inputExpr
          (clipped.levels.map (fun l => Expr.litStr l.value)))
        inputExpr
        (Expr.condE (Expr.isNullE inputExpr)
          (Expr.litStr nullRepr) (Expr.litStr otherRepr))
      let specialValues :=
        (if 0 < clipped.otherCount then [otherRepr] else []) ++
        (if 0 < clipped.nullCount then [nullRepr] else [])
      let levelValues := clipped.levels.map (·.value)
      some
        { select := select
          scale :=
            { type := "band"
              domain := clipped.levels.map (fun l => DataValue.str l.value)
              specialValues := some specialValues }
          field := fun v => v
          predicate := fun v => match v with
            | .arr l => some (SQLor (l.map
                (nomInnerPredicate inputExpr clipped.levels nullRepr
                  otherRepr)))
            | .single (.interval a b) => some (SQLor
                ([DataValue.num a, DataValue.num b].map
                  (nomInnerPredicate inputExpr clipped.levels nullRepr
                    otherRepr)))
            | .single (.str s) => some
                (nomInnerPredicate inputExpr clipped.levels nullRepr
                  otherRepr (.str s))
            | _ => none
          order := fun a b => match a, b with
            | .str sa, .str sb =>
              let xa := if jsIndexOf levelValues sa < 0 then
                  (levelValues.length : ℤ) + jsIndexOf specialValues sa
                else jsIndexOf levelValues sa
              let xb := if jsIndexOf levelValues sb < 0 then
                  (levelValues.length : ℤ) + jsIndexOf specialValues sb
                else jsIndexOf levelValues sb
              ((xa - xb : ℤ) : ℚ)
            | _, _ => 0 }
    | none => none

/-- The specialValues condition as the spec words it (section 4.2, claim
C4): a value qualifies for the "n/a" bucket when it is non-finite or, on a
log scale, a non-positive finite value. -/
def specQualifyingNA (q : QuantStats) (scaleType : String) : Prop :=
  0 < q.countNonFinite ∨ (scaleType = "log" ∧ 0 < q.count ∧ q.min ≤ 0)

/-! ### Count plot selection (charts/basic/CountPlot.svelte) -/

/-- `isSame(a, b)` from the count plot: equality of the JSON.stringify
renderings. -/
def isSame (a b : DataValue) : Bool := keyOf a == keyOf b

/-- `toggleSelection(value, shift)` from the count plot. -/
def toggleSelection (selection : Option (List DataValue)) (value : DataValue)
    (shift : Bool) : Option (List DataValue) :=
  match selection with
  | none => some [value]
  | some l =>
    if l.length = 0 then some [value]
    else
      let exists_ := l.any (fun x => isSame x value)
      if shift then
        if exists_ then some (l.filter (fun x => !(isSame x value)))
        else some (l ++ [value])
      else
        if exists_ then none else some [value]

/-- The clause the count plot selection effect writes to the shared filter:
source and clients plus either the selection value with
`aggregate.predicate(selection) ?? null`, or a null value and predicate when
the selection state is undefined. -/
structure CPClause where
  clients : List Nat
  value : Option (List DataValue)
  predicate : Option Expr
deriving Repr

def countPlotClause (clientSelection : Nat)
    (aggPredicate : AggValue → Option Expr)
    (selection : Option (List DataValue)) : CPClause :=
  match selection with
  | some sel =>
    { clients := [clientSelection]
      value := some sel
      predicate := aggPredicate (.arr sel) }
  | none =>
    { clients := [clientSelection], value := none, predicate := none }

/-! ### `buildEncoding` (chart runtime) -/

/-- `SQLField`: a column name or a SQL fragment. -/
inductive SQLField where
  | name (s : String)
  | sqlExpr (sql : String)
deriving DecidableEq, Repr

/-- The `aggregate` member of an aggregate encoding: an aggregate name or a
custom `{sql}` object. -/
inductive AggFnSpec where
  | named (s : String)
  | customSql (sql : String)
deriving DecidableEq, Repr

structure BinSpec where
  desiredCount : Option Nat := none
deriving DecidableEq, Repr

/-- `Encoding`: the tagged union `{aggregate, field?, quantile?, normalize?}`
| `{field, bin?}` | `{value}`. -/
inductive Encoding where
  | agg (fn : AggFnSpec) (field : Option SQLField) (quantile : Option ℚ)
      (normalize : Option String)
  | fieldEnc (field : SQLField) (bin : Option BinSpec)
  | valueEnc (v : DataValue)

/-- `ctx.fieldExpr(field)`: a plain name becomes a column reference; a SQL
fragment keeps its text (the `$table`/`$filter` substitution of
`replaceVars` is not modelled further; no claim depends on it). -/
def fieldExpr (f : SQLField) : Expr :=
  match f with
  | .name s => Expr.column s
  | .sqlExpr s => Expr.rawSql s

/-- `quantitativePredicate(field, v)` from the chart runtime: a two-element
numeric array becomes a BETWEEN over the ordered pair, anything else is
undefined. -/
def quantitativePredicate (fieldE : Expr) : AggValue → Option Expr
  | .single (.interval a b) => some (Expr.isBetween fieldE (min a b) (max a b))
  | .arr [.num a, .num b] => some (Expr.isBetween fieldE (min a b) (max a b))
  | _ => none

def fieldTitle : SQLField → String
  | .name s => s
  | .sqlExpr s => s

/-- The key set of the `numericalAggregates` table. -/
def numericalAggregateNames : List String :=
  ["min", "max", "mean", "average", "median", "stdev", "stdevp",
   "variance", "variancep", "sum", "product", "quantile"]

/-- The SQL node built by a `numericalAggregates` entry, with the
`.where(isFinite(expr))` filter that buildEncoding attaches. -/
def numericalAggregateExpr (s : String) (e : Expr) (q : Option ℚ) : Expr :=
  if s = "quantile" then
    Expr.quantileFn e (q.getD (1 / 2)) (some (Expr.isFiniteE e))
  else
    let fnName :=
      if s = "mean" ∨ s = "average" then "avg"
      else if s = "stdev" then "stddev"
      else if s = "stdevp" then "stddevPop"
      else if s = "variancep" then "varPop"
      else s
    Expr.aggFn fnName e (some (Expr.isFiniteE e))

/-- The result record of `buildEncoding`. -/
structure BuildResult where
  select : Option Expr := none
  scale : Option ScaleHints := none
  normalize : Option String := none
  grouping : Option (List Expr) := none
  mapper : Option (DataValue → DataValue) := none
  order : Option (DataValue → DataValue → ℚ) := none

/-- `buildEncoding(ctx, from, channel, encoding, fieldsInGroupBy)` from the
chart runtime. `stats` is the lookup into `ctx.stats` for the layer source
(keyed here by field only, the source being fixed per layer);
`specScaleType` is `ctx.spec.scale?.[channel]?.type`. The second component
collects the `console.warn` messages. The spread of `aggregate.scale` into
the scale hints keeps its type, domain and specialValues; the extra
`constant` property has no `ScaleHints` field and is dropped. -/
def buildEncoding (stats : SQLField → Option FieldStats)
    (specScaleType : String → Option String)
    (channel : Option String) (encoding : Encoding)
    (fieldsInGroupBy : Bool) : Option BuildResult × List String :=
  match encoding with
  | .agg fn field quantile normalize =>
    match fn with
    | .named s =>
      if s = "count" then
        (some { select := some Expr.count
                scale := some { kind := "quantitative", title := some "Count",
                                includeZero := some true }
                normalize := normalize }, [])
      else if s = "ecdf-value" then
        match field with
        | some f =>
          let expr := Expr.castE (fieldExpr f) "DOUBLE"
          (some { select := some (Expr.ecdfValueSelect expr)
                  scale := some { kind := "quantitative"
                                  predicate :=
                                    some (quantitativePredicate expr)
                                  title := some (fieldTitle f) }
                  normalize := normalize }, [])
        | none => (none, ["Invalid spec: aggregate requires a field"])
      else if s = "ecdf-rank" then
        (some { select := some Expr.ecdfRankSelect
                scale := some { kind := "quantitative"
                                domain := some [DataValue.num 0,
                                                DataValue.num 1]
                                title := some "Quantile" }
                normalize := normalize }, [])
      else if numericalAggregateNames.contains s then
        match field with
        | some f =>
          let expr := fieldExpr f
          (some { select := some (numericalAggregateExpr s expr quantile)
                  scale := some { kind := "quantitative"
                                  predicate :=
                                    some (quantitativePredicate expr)
                                  title := some (s.toUpper ++ "(" ++
                                    fieldTitle f ++ ")") }
                  normalize := normalize }, [])
        | none => (none, ["Invalid spec: aggregate requires a field"])
      else
        (none, ["Invalid spec: unknown aggregate"])
    | .customSql sql =>
      (some { select := some (Expr.rawSql sql)
              scale := some { kind := "quantitative" }
              normalize := normalize }, [])
  | .fieldEnc f bin =>
    let bin2 := if bin.isNone && fieldsInGroupBy && channel.isSome then
        some ({} : BinSpec)
      else bin
    match stats f with
    | none => (none, [])
    | some st =>
      match bin2 with
      | some b =>
        match inferAggregate st
            (match channel with
             | some ch => specScaleType ch
             | none => none)
            (some (b.desiredCount.getD
              (if channel = some "x" ∨ channel = some "y" then 20
               else 5))) with
        | none => (none, ["Invalid spec: unsupported data type"])
        | some a =>
          (some { select := some a.select
                  grouping := some [a.select]
                  scale := match channel with
                    | some _ => some
                        { kind := if a.scale.type = "band" then "nominal"
                                  else "quantitative"
                          type := some a.scale.type
                          domain := some a.scale.domain
                          specialValues := a.scale.specialValues
                          title := some (fieldTitle f)
                          predicate := some a.predicate }
                    | none => none
                  mapper := some a.field
                  order := some a.order }, [])
      | none =>
        let select := fieldExpr f
        (some { select := some select
                grouping := some (if fieldsInGroupBy then [select] else [])
                scale := some { kind := if st.quantitative.isSome then
                    "quantitative"
                  else "nominal" } }, [])
  | .valueEnc v =>
    (some { mapper := some (fun _ => v)
            scale := match v with
              | .str s => some { kind := "nominal", domain := some [.str s] }
              | .num q => some { kind := "quantitative"
                                 domain := some [.num q] }
              | _ => none }, [])

/-- `channelForAttribute(attribute)` from the chart runtime (the parameter
is renamed since attribute is reserved in Lean). -/
def channelForAttribute (attr : String) : Option String :=
  if attr = "x" ∨ attr = "x1" ∨ attr = "x2" then some "x"
  else if attr = "y" ∨ attr = "y1" ∨ attr = "y2" then some "y"
  else if attr = "color" then some "color"
  else if attr = "size" then some "size"
  else none

def encodingHasAggregateOrBin : Encoding → Bool
  | .agg _ _ _ _ => true
  | .fieldEnc _ (some _) => true
  | _ => false

/-- The pre-scan of buildLayer: the layer needs a group-by query iff some
encoding aggregates or bins. -/
def layerHasAggregateOrBin (encodings : List (String × Encoding)) : Bool :=
  encodings.any (fun p => encodingHasAggregateOrBin p.2)

/-- The select-entry accumulation loop of buildLayer: an encoding whose
resolution returns undefined is skipped, the rest contribute their select
expressions under their attribute names. -/
def layerSelectEntries (stats : SQLField → Option FieldStats)
    (specScaleType : String → Option String) (flag : Bool)
    (encodings : List (String × Encoding)) : List (String × Expr) :=
  encodings.foldl
    (fun acc p =>
      match (buildEncoding stats specScaleType (channelForAttribute p.1)
          p.2 flag).1 with
      | none => acc
      | some r =>
        match r.select with
        | some sel => acc ++ [(p.1, sel)]
        | none => acc)
    []

/-! ### ChartRuntime selection sync, cleanup and setSpec races
    (chart runtime source) -/

/-- A brush selection value: the runtime reads `value?.x` and `value?.y`;
an absent member is the undefined value. -/
structure BrushValue where
  x : AggValue := .single .undefV
  y : AggValue := .single .undefV
deriving DecidableEq, Repr

/-- The clause function selectionOutputs builds for an encoding selection:
an undefined value yields no clause; otherwise the clause carries the value
and the AND of the defined axis predicates. -/
def selectionClauseFn (xPred yPred : Option (AggValue → Option Expr)) :
    Option BrushValue → Option (BrushValue × Expr) :=
  fun value =>
    match value with
    | none => none
    | some v =>
      some (v, SQLand ([xPred.bind (fun p => p v.x),
                        yPred.bind (fun p => p v.y)].filterMap id))

structure SelectionOutput where
  key : String
  type : String
  clause : Option BrushValue → Option (BrushValue × Expr)

/-- `selectionOutputs(spec, scaleHints)` restricted to the encoding
selections of the spec (named pairs of key and encoding axis): each gets the
predicate functions from the scale hints of its axes. -/
def selectionOutputs (sels : List (String × String))
    (scaleHints : String → Option ScaleHints) : List SelectionOutput :=
  sels.map (fun p =>
    let xPred := if p.2 = "x" ∨ p.2 = "xy" then
        (scaleHints "x").bind (·.predicate) else none
    let yPred := if p.2 = "y" ∨ p.2 = "xy" then
        (scaleHints "y").bind (·.predicate) else none
    { key := p.1, type := p.2, clause := selectionClauseFn xPred yPred })

/-- A clause from this runtime's source as stored in the shared filter. -/
structure FilterClause where
  clients : List Nat
  value : Option BrushValue
  predicate : Option Expr

/-- The clause the subscription writes: the derived clause when defined,
otherwise the clearing clause with null value and predicate; both carry the
client set. -/
def mkClause (clients : List Nat) :
    Option (BrushValue × Expr) → FilterClause
  | some (v, p) => { clients := clients, value := some v,
                     predicate := some p }
  | none => { clients := clients, value := none, predicate := none }

/-- An observable action of the runtime on shared resources: a filter update
from this source, or the destruction of a query client. -/
inductive REvent where
  | update (c : FilterClause)
  | destroyClient (id : Nat)

/-- The state of the subscription in ChartRuntime.setSpec: the
currentClause memo (selection identity is its index within this epoch, the
value compared with deepEquals) and the last clause this source wrote to the
shared filter. -/
structure RunState where
  currentClause : Option (Nat × Option BrushValue) := none
  filterClause : Option FilterClause := none

/-- One iteration of the subscription body for selection number `i`: skip
when the memo matches this selection and value, otherwise write the clause
derived from the state value (the clearing clause when the clause function
yields none). -/
def fireStep (clients : List Nat) (i : Nat) (sel : SelectionOutput)
    (stVal : Option BrushValue) (s : RunState) : RunState × List REvent :=
  if s.currentClause = some (i, stVal) then (s, [])
  else
    let c := mkClause clients (sel.clause stVal)
    ({ currentClause := some (i, stVal), filterClause := some c },
     [REvent.update c])

/-- The subscription body: iterate the selections in order against the
current chart state (none when the state store holds undefined). -/
def fireAux (clients : List Nat)
    (st : Option (String → Option BrushValue)) :
    Nat → List SelectionOutput → RunState → RunState × List REvent
  | _, [], s => (s, [])
  | i, sel :: rest, s =>
    let value := st.bind (fun f => f sel.key)
    let r1 := fireStep clients i sel value s
    let r2 := fireAux clients st (i + 1) rest r1.1
    (r2.1, r1.2 ++ r2.2)

def fire (clients : List Nat) (sels : List SelectionOutput)
    (st : Option (String → Option BrushValue)) (s : RunState) :
    RunState × List REvent :=
  fireAux clients st 0 sels s

/-- `cleanupFn` of ChartRuntime.setSpec: reset the source, set the state
store to undefined — which fires the subscription once more with undefined
state — unsubscribe, then destroy every query client, in that order. -/
def cleanupTrace (clients : List Nat) (sels : List SelectionOutput)
    (s : RunState) : RunState × List REvent :=
  let r := fire clients sels none s
  (r.1, r.2 ++ clients.map REvent.destroyClient)

/-- The subscription states reachable in one setSpec epoch after any
sequence of state-store values. -/
def runFires (clients : List Nat) (sels : List SelectionOutput)
    (sts : List (Option (String → Option BrushValue))) : RunState :=
  sts.foldl (fun s st => (fire clients sels st s).1) {}

/-- A clearing clause: value and predicate both null. -/
def clearingClause (c : FilterClause) : Prop :=
  c.value = none ∧ c.predicate = none

/-- Invariant tying the currentClause memo to the last written clause. -/
def RunInv (clients : List Nat) (sels : List SelectionOutput)
    (s : RunState) : Prop :=
  (s.currentClause = none ∧ s.filterClause = none) ∨
  (∃ i v sel, sels.get? i = some sel ∧ s.currentClause = some (i, v) ∧
    s.filterClause = some (mkClause clients (sel.clause v)))

/-- The runtime state `setSpec` manipulates, abstracted to what claim C2
needs: the identity of the currently active spec (`this.spec`, spec objects
identified by JS object identity, modelled as numbers), and a ledger of
every spec whose outputs, selections and filter subscription have been
published. -/
structure RTState where
  spec : Option Nat := none
  published : List Nat := []
deriving DecidableEq, Repr

/-- The synchronous prefix of `setSpec(spec)`: return unchanged when the new
spec deep-equals the current one; otherwise run cleanup, set `this.spec` to
the new spec, and suspend awaiting the field statistics. The boolean
reports whether the call proceeded past the guard. -/
def setSpecStart (deepEq : Nat → Nat → Bool) (rt : RTState) (s : Nat) :
    RTState × Bool :=
  if (match rt.spec with | some t => deepEq s t | none => false) then
    (rt, false)
  else
    ({ spec := some s, published := rt.published }, true)

/-- The continuation of `setSpec(spec)` when its statistics arrive: when
`this.spec !== spec` (identity comparison) the stale completion returns
without effect, otherwise the outputs, selections and filter subscription
for this spec are published. -/
def setSpecComplete (rt : RTState) (s : Nat) : RTState :=
  if rt.spec = some s then { rt with published := rt.published ++ [s] }
  else rt

/-! ## Theorems -/

theorem groupInsert_found (l : List Nat) (i : Nat) :
    groupInsert [(JKey.jempty, l)] JKey.jempty i = [(JKey.jempty, l ++ [i])] := by
  simp [groupInsert, List.find?]

theorem groupRows_none_succ :
    ∀ n, groupRows none (n + 1) = [(JKey.jempty, List.range (n + 1))] := by
  intro n
  induction n with
  | zero => rfl
  | succ n ih =>
    unfold groupRows at *
    rw [List.range_succ (n := n + 1), List.foldl_append]
    rw [ih]
    simp [groupInsert_found, List.range_succ (n := n + 1)]

theorem insertSorted_of_le (le : Nat → Nat → Bool) (x y : Nat) (ys : List Nat)
    (h : le x y = true) : insertSorted le x (y :: ys) = x :: y :: ys := by
  simp [insertSorted, h]

theorem sortIdx_of_chain (le : Nat → Nat → Bool) :
    ∀ l : List Nat, l.Chain' (fun a b => le a b = true) → sortIdx le l = l := by
  intro l hl
  induction l with
  | nil => rfl
  | cons x xs ih =>
    rw [List.chain'_cons'] at hl
    rw [sortIdx, ih hl.2]
    cases xs with
    | nil => rfl
    | cons y ys => exact insertSorted_of_le le x y ys (hl.1 y rfl)

theorem range_chain_sub_nonpos (n : Nat) :
    (List.range n).Chain'
      (fun a b : Nat => decide (((a : ℚ) - (b : ℚ)) ≤ 0) = true) := by
  apply List.Pairwise.chain'
  refine (List.pairwise_lt_range n).imp ?_
  intro a b hab
  simp only [decide_eq_true_eq]
  have : (a : ℚ) ≤ (b : ℚ) := by exact_mod_cast Nat.le_of_lt hab
  linarith

theorem stackLoop_shift (a : DataValue) :
    ∀ (entry : List Nat) (c : ℚ) (col : List DataValue),
      stackLoop (entry.map (· + 1)) c (a :: col) = a :: stackLoop entry c col := by
  intro entry
  induction entry with
  | nil => intro c col; rfl
  | cons i rest ih =>
    intro c col
    cases hv : col[i]?.getD DataValue.undefV <;>
      simp only [stackLoop, List.map_cons, List.getElem?_cons_succ,
        List.getD_eq_getElem?_getD, List.set_cons_succ, hv] <;>
      exact ih _ _

theorem stackLoop_range :
    ∀ (vs : List DataValue) (c : ℚ),
      stackLoop (List.range vs.length) c vs = stackSpecList c vs := by
  intro vs
  induction vs with
  | nil => intro c; rfl
  | cons v rest ih =>
    intro c
    have hr : List.range (rest.length + 1) =
        0 :: (List.range rest.length).map (· + 1) := by
      simp [List.range_succ_eq_map, Nat.succ_eq_add_one]
    rw [List.length_cons, hr]
    cases v <;>
      simp [stackLoop, stackSpecList, List.getD_cons_zero, stackLoop_shift, ih]

theorem sortIdx_pair (le : Nat → Nat → Bool) :
    sortIdx le [0, 1] = if le 0 1 then [0, 1] else [1, 0] := by
  by_cases h : le 0 1 <;> simp [sortIdx, insertSorted, h]

/-- Helper: on a table with only the stacked column, all rows fall in one
group and, with no comparators, retain their original order; the stacked
column becomes the cumulative-interval transform. -/
theorem stack_single_group (vs : List DataValue) :
    stack ⟨vs.length, [("y", vs)]⟩ "x" [] =
      some ⟨vs.length, [("y", stackSpecList 0 vs)]⟩ := by
  cases vs with
  | nil => rfl
  | cons v rest =>
    show (stack ⟨(v :: rest).length, [("y", v :: rest)]⟩ "x" []) = _
    simp only [stack, if_true]
    rw [show ((⟨(v :: rest).length, [("y", v :: rest)]⟩ : DataTable).col "y") =
          some (v :: rest) from rfl]
    simp only []
    rw [show ((⟨(v :: rest).length, [("y", v :: rest)]⟩ : DataTable).col "x") =
          none from rfl]
    simp only [List.length_cons]
    rw [groupRows_none_succ]
    simp only [List.foldl_cons, List.foldl_nil]
    rw [sortIdx_of_chain _ _ (by
      have := range_chain_sub_nonpos (rest.length + 1)
      simpa [stackCompare] using this)]
    rw [show List.range (rest.length + 1) =
          List.range ((v :: rest).length) by simp]
    rw [stackLoop_range]
    simp

/-- A write at one position leaves reads at other positions unchanged. -/
theorem getD_set_of_ne :
    ∀ (l : List DataValue) (i j : Nat) (v d : DataValue), i ≠ j →
      (l.set i v).getD j d = l.getD j d := by
  intro l
  induction l with
  | nil => intro i j v d _; rfl
  | cons a l ih =>
    intro i j v d h
    cases i with
    | zero =>
      cases j with
      | zero => exact absurd rfl h
      | succ j => rfl
    | succ i =>
      cases j with
      | zero => rfl
      | succ j =>
        simp only [List.set, List.getD_cons_succ]
        exact ih i j v d (fun he => h (by rw [he]))

/-- A write at an in-range position is read back. -/
theorem getD_set_self_of_lt :
    ∀ (l : List DataValue) (i : Nat) (v d : DataValue), i < l.length →
      (l.set i v).getD i d = v := by
  intro l
  induction l with
  | nil => intro i v d h; exact absurd h (Nat.not_lt_zero i)
  | cons a l ih =>
    intro i v d h
    cases i with
    | zero => rfl
    | succ i =>
      simp only [List.set, List.getD_cons_succ]
      exact ih i v d (Nat.lt_of_succ_lt_succ h)

theorem stackLoop_length :
    ∀ (entry : List Nat) (c : ℚ) (col : List DataValue),
      (stackLoop entry c col).length = col.length := by
  intro entry
  induction entry with
  | nil => intro c col; rfl
  | cons i rest ih =>
    intro c col
    cases hv : col.getD i DataValue.undefV <;>
      simp only [stackLoop, hv] <;> rw [ih, List.length_set]

/-- The accumulation loop writes only at the positions of its entry list. -/
theorem stackLoop_getD_not_mem :
    ∀ (entry : List Nat) (c : ℚ) (col : List DataValue) (j : Nat),
      j ∉ entry →
      (stackLoop entry c col).getD j DataValue.undefV =
        col.getD j DataValue.undefV := by
  intro entry
  induction entry with
  | nil => intro c col j _; rfl
  | cons i rest ih =>
    intro c col j hj
    have hji : i ≠ j := fun h => hj (h ▸ List.mem_cons_self i rest)
    have hjr : j ∉ rest := fun h => hj (List.mem_cons_of_mem i h)
    cases hv : col.getD i DataValue.undefV <;>
      simp only [stackLoop, hv] <;>
      rw [ih _ _ j hjr, getD_set_of_ne _ _ _ _ _ hji]

/-- Read back along its own entry list, the accumulation loop produces
exactly the cumulative-interval transform of the original values, in entry
order. -/
theorem stackLoop_map :
    ∀ (entry : List Nat) (c : ℚ) (col : List DataValue),
      entry.Nodup → (∀ i ∈ entry, i < col.length) →
      entry.map (fun i => (stackLoop entry c col).getD i DataValue.undefV) =
        stackSpecList c
          (entry.map (fun i => col.getD i DataValue.undefV)) := by
  intro entry
  induction entry with
  | nil => intro c col _ _; rfl
  | cons i rest ih =>
    intro c col hnd hb
    obtain ⟨hir, hndr⟩ := List.nodup_cons.mp hnd
    have hbi : i < col.length := hb i (List.mem_cons_self i rest)
    have hbr : ∀ x ∈ rest, x < col.length :=
      fun x hx => hb x (List.mem_cons_of_mem i hx)
    have hne : ∀ x ∈ rest, i ≠ x :=
      fun x hx he => hir (he ▸ hx)
    cases hv : col.getD i DataValue.undefV with
    | num q =>
      simp only [stackLoop, hv, List.map_cons, stackSpecList]
      congr 1
      · rw [stackLoop_getD_not_mem rest _ _ i hir,
          getD_set_self_of_lt col i _ _ hbi]
      · rw [ih (c + q) (col.set i (DataValue.interval c (c + q))) hndr
          (fun x hx => by rw [List.length_set]; exact hbr x hx)]
        congr 1
        exact List.map_congr_left
          (fun x hx => getD_set_of_ne col i x _ _ (hne x hx))
    | str t =>
      simp only [stackLoop, hv, List.map_cons, stackSpecList]
      congr 1
      · rw [stackLoop_getD_not_mem rest _ _ i hir,
          getD_set_self_of_lt col i _ _ hbi]
      · rw [ih c (col.set i DataValue.null) hndr
          (fun x hx => by rw [List.length_set]; exact hbr x hx)]
        congr 1
        exact List.map_congr_left
          (fun x hx => getD_set_of_ne col i x _ _ (hne x hx))
    | nan =>
      simp only [stackLoop, hv, List.map_cons, stackSpecList]
      congr 1
      · rw [stackLoop_getD_not_mem rest _ _ i hir,
          getD_set_self_of_lt col i _ _ hbi]
      · rw [ih c (col.set i DataValue.null) hndr
          (fun x hx => by rw [List.length_set]; exact hbr x hx)]
        congr 1
        exact List.map_congr_left
          (fun x hx => getD_set_of_ne col i x _ _ (hne x hx))
    | interval a b =>
      simp only [stackLoop, hv, List.map_cons, stackSpecList]
      congr 1
      · rw [stackLoop_getD_not_mem rest _ _ i hir,
          getD_set_self_of_lt col i _ _ hbi]
      · rw [ih c (col.set i DataValue.null) hndr
          (fun x hx => by rw [List.length_set]; exact hbr x hx)]
        congr 1
        exact List.map_congr_left
          (fun x hx => getD_set_of_ne col i x _ _ (hne x hx))
    | null =>
      simp only [stackLoop, hv, List.map_cons, stackSpecList]
      congr 1
      · rw [stackLoop_getD_not_mem rest _ _ i hir,
          getD_set_self_of_lt col i _ _ hbi]
      · rw [ih c (col.set i DataValue.null) hndr
          (fun x hx => by rw [List.length_set]; exact hbr x hx)]
        congr 1
        exact List.map_congr_left
          (fun x hx => getD_set_of_ne col i x _ _ (hne x hx))
    | undefV =>
      simp only [stackLoop, hv, List.map_cons, stackSpecList]
      congr 1
      · rw [stackLoop_getD_not_mem rest _ _ i hir,
          getD_set_self_of_lt col i _ _ hbi]
      · rw [ih c (col.set i DataValue.null) hndr
          (fun x hx => by rw [List.length_set]; exact hbr x hx)]
        congr 1
        exact List.map_congr_left
          (fun x hx => getD_set_of_ne col i x _ _ (hne x hx))

theorem insertSorted_perm (le : Nat → Nat → Bool) (x : Nat) :
    ∀ l : List Nat, (insertSorted le x l).Perm (x :: l) := by
  intro l
  induction l with
  | nil => exact List.Perm.refl _
  | cons y ys ih =>
    by_cases h : le x y
    · rw [insertSorted, if_pos h]
    · rw [insertSorted, if_neg h]
      exact (List.Perm.cons y ih).trans (List.Perm.swap x y ys)

/-- The sort inside `stack` permutes its entry list. -/
theorem sortIdx_perm (le : Nat → Nat → Bool) :
    ∀ l : List Nat, (sortIdx le l).Perm l := by
  intro l
  induction l with
  | nil => exact List.Perm.refl _
  | cons x xs ih =>
    rw [sortIdx]
    exact (insertSorted_perm le x (sortIdx le xs)).trans (List.Perm.cons x ih)

/-- One grouping step preserves well-formedness when the inserted row index
is fresh (equal to the current bound). -/
theorem groupInsert_ok (m : List (JKey × List Nat)) (k : JKey) (n : Nat)
    (h : GroupsOK m n) : GroupsOK (groupInsert m k n) (n + 1) := by
  obtain ⟨hkeys, hbound, hsort, hdisj⟩ := h
  rw [groupInsert]
  by_cases hf : (m.find? (fun p => p.1 == k)).isSome
  · rw [if_pos hf]
    refine ⟨?_, ?_, ?_, ?_⟩
    · have hmap : ((m.map (fun p =>
          if p.1 == k then (p.1, p.2 ++ [n]) else p)).map Prod.fst) =
          m.map Prod.fst := by
        rw [List.map_map]
        apply List.map_congr_left
        intro p _
        simp only [Function.comp_apply]
        split <;> rfl
      rw [hmap]
      exact hkeys
    · intro p' hp' i hi
      obtain ⟨p, hp, hpe⟩ := List.mem_map.mp hp'
      subst hpe
      by_cases hpk : (p.1 == k) = true
      · rw [if_pos hpk] at hi
        rcases List.mem_append.mp hi with h1 | h2
        · exact Nat.lt_succ_of_lt (hbound p hp i h1)
        · rw [List.mem_singleton] at h2
          rw [h2]
          exact Nat.lt_succ_self n
      · rw [if_neg hpk] at hi
        exact Nat.lt_succ_of_lt (hbound p hp i hi)
    · intro p' hp'
      obtain ⟨p, hp, hpe⟩ := List.mem_map.mp hp'
      subst hpe
      by_cases hpk : (p.1 == k) = true
      · rw [if_pos hpk]
        rw [List.pairwise_append]
        refine ⟨hsort p hp, List.pairwise_singleton _ _, ?_⟩
        intro a ha b hb
        rw [List.mem_singleton] at hb
        rw [hb]
        exact hbound p hp a ha
      · rw [if_neg hpk]
        exact hsort p hp
    · have hkeyp : m.Pairwise (fun p q => p.1 ≠ q.1) :=
        List.pairwise_map.mp hkeys
      apply List.pairwise_map.mpr
      refine (hdisj.and hkeyp).imp_of_mem ?_
      intro p q hp hq hpq
      obtain ⟨hd, hne⟩ := hpq
      intro i hi
      by_cases hpk : (p.1 == k) = true <;> by_cases hqk : (q.1 == k) = true
      · exact absurd (beq_iff_eq.mp hpk ▸ (beq_iff_eq.mp hqk).symm) hne
      · rw [if_pos hpk] at hi
        rw [if_neg hqk]
        rcases List.mem_append.mp hi with h1 | h2
        · exact hd i h1
        · rw [List.mem_singleton] at h2
          rw [h2]
          intro hmem
          exact Nat.lt_irrefl n (hbound q hq n hmem)
      · rw [if_neg hpk] at hi
        rw [if_pos hqk]
        intro hmem
        rcases List.mem_append.mp hmem with h1 | h2
        · exact hd i hi h1
        · rw [List.mem_singleton] at h2
          rw [h2] at hi
          exact Nat.lt_irrefl n (hbound p hp n hi)
      · rw [if_neg hpk] at hi
        rw [if_neg hqk]
        exact hd i hi
  · rw [if_neg hf]
    have hknotin : ∀ p ∈ m, ¬ (p.1 == k) = true := fun p hp =>
      List.find?_eq_none.mp (Option.not_isSome_iff_eq_none.mp hf) p hp
    refine ⟨?_, ?_, ?_, ?_⟩
    · rw [List.map_append]
      refine List.nodup_append.mpr ⟨hkeys, List.nodup_singleton k, ?_⟩
      intro a ha hb
      simp only [List.map_cons, List.map_nil, List.mem_singleton] at hb
      obtain ⟨p, hp, hpe⟩ := List.mem_map.mp ha
      exact hknotin p hp (beq_iff_eq.mpr (by rw [hpe, hb]))
    · intro p hp i hi
      rcases List.mem_append.mp hp with h1 | h2
      · exact Nat.lt_succ_of_lt (hbound p h1 i hi)
      · rw [List.mem_singleton] at h2
        subst h2
        have hi' : i ∈ [n] := hi
        rw [List.mem_singleton] at hi'
        rw [hi']
        exact Nat.lt_succ_self n
    · intro p hp
      rcases List.mem_append.mp hp with h1 | h2
      · exact hsort p h1
      · rw [List.mem_singleton] at h2
        subst h2
        exact List.pairwise_singleton _ _
    · rw [List.pairwise_append]
      refine ⟨hdisj, List.pairwise_singleton _ _, ?_⟩
      intro p hp q hq i hi
      rw [List.mem_singleton] at hq
      subst hq
      intro hmem
      have hmem' : i ∈ [n] := hmem
      rw [List.mem_singleton] at hmem'
      rw [hmem'] at hi
      exact Nat.lt_irrefl n (hbound p hp n hi)

/-- The grouping map built by `groupRows` is well-formed: keys distinct,
indices in range, entries ascending and pairwise disjoint. -/
theorem groupRows_ok (keycol : Option (List DataValue)) :
    ∀ n, GroupsOK (groupRows keycol n) n := by
  have main : ∀ (kf : Nat → JKey) (n : Nat),
      GroupsOK ((List.range n).foldl
        (fun m i => groupInsert m (kf i) i) []) n := by
    intro kf n
    induction n with
    | zero =>
      exact ⟨by simp, by simp, by simp, by simp⟩
    | succ n ih =>
      rw [List.range_succ, List.foldl_append]
      simp only [List.foldl_cons, List.foldl_nil]
      exact groupInsert_ok _ _ n ih
  intro n
  exact main (fun i => match keycol with
    | some col => keyOf (col.getD i DataValue.undefV)
    | none => JKey.jempty) n

/-- The fold over all groups never touches a position outside every entry. -/
theorem foldl_stack_getD_not_mem (le : Nat → Nat → Bool) :
    ∀ (gs : List (JKey × List Nat)) (col : List DataValue) (j : Nat),
      (∀ p ∈ gs, j ∉ p.2) →
      (gs.foldl (fun col p => stackLoop (sortIdx le p.2) 0 col) col).getD j
          DataValue.undefV =
        col.getD j DataValue.undefV := by
  intro gs
  induction gs with
  | nil => intro col j _; rfl
  | cons p gs ih =>
    intro col j hj
    rw [List.foldl_cons,
      ih _ j (fun q hq => hj q (List.mem_cons_of_mem p hq))]
    exact stackLoop_getD_not_mem _ 0 col j
      (fun hmem => hj p (List.mem_cons_self p gs)
        ((sortIdx_perm le p.2).mem_iff.mp hmem))

/-- Core of claim C5: in the fold over all groups, the positions of any one
group, read in that group's comparator-sorted order, hold exactly the
cumulative-interval transform of the group's original values — the running
sum restarts at zero for the group and other groups never interfere. -/
theorem foldl_stack_group (le : Nat → Nat → Bool) :
    ∀ (gs : List (JKey × List Nat)) (col : List DataValue)
      (k : JKey) (entry : List Nat),
      (k, entry) ∈ gs →
      (∀ p ∈ gs, ∀ i ∈ p.2, i < col.length) →
      (∀ p ∈ gs, p.2.Nodup) →
      gs.Pairwise (fun p q => ∀ i ∈ p.2, i ∉ q.2) →
      (sortIdx le entry).map
          (fun i => (gs.foldl (fun col p =>
              stackLoop (sortIdx le p.2) 0 col) col).getD i
            DataValue.undefV) =
        stackSpecList 0
          ((sortIdx le entry).map
            (fun i => col.getD i DataValue.undefV)) := by
  intro gs
  induction gs with
  | nil =>
    intro col k entry hmem
    exact absurd hmem (List.not_mem_nil _)
  | cons p gs ih =>
    intro col k entry hmem hb hnd hpw
    obtain ⟨hd, hpw'⟩ := List.pairwise_cons.mp hpw
    rw [List.foldl_cons]
    rcases List.mem_cons.mp hmem with heq | hmem'
    · have hpe : p.2 = entry := by rw [← heq]
      have hnotin : ∀ i ∈ sortIdx le entry, ∀ q ∈ gs, i ∉ q.2 := by
        intro i hi q hq
        exact hd q hq i
          (by rw [hpe]; exact (sortIdx_perm le entry).mem_iff.mp hi)
      rw [List.map_congr_left (fun i hi =>
        foldl_stack_getD_not_mem le gs _ i (hnotin i hi))]
      rw [hpe]
      rw [stackLoop_map (sortIdx le entry) 0 col
        ((sortIdx_perm le entry).nodup_iff.mpr
          (by rw [← hpe]; exact hnd p (List.mem_cons_self p gs)))
        (fun i hi => hb p (List.mem_cons_self p gs) i
          (by rw [hpe]; exact (sortIdx_perm le entry).mem_iff.mp hi))]
    · have hdisj : ∀ i ∈ sortIdx le entry, i ∉ sortIdx le p.2 := by
        intro i hi hip
        exact hd (k, entry) hmem' i
          ((sortIdx_perm le p.2).mem_iff.mp hip)
          ((sortIdx_perm le entry).mem_iff.mp hi)
      rw [ih (stackLoop (sortIdx le p.2) 0 col) k entry hmem'
        (fun q hq i hi => by
          rw [stackLoop_length]
          exact hb q (List.mem_cons_of_mem p hq) i hi)
        (fun q hq => hnd q (List.mem_cons_of_mem p hq)) hpw']
      exact congrArg (stackSpecList 0)
        (List.map_congr_left (fun i hi =>
          stackLoop_getD_not_mem _ 0 col i (hdisj i hi)))

/-- With no comparators, the comparator falls back to the index difference,
so an ascending entry list keeps its original order. -/
theorem sortIdx_of_sorted_entry (data : DataTable) (entry : List Nat)
    (hsorted : entry.Pairwise (· < ·)) :
    sortIdx (fun i j => decide (stackCompare [] data i j ≤ 0)) entry =
      entry := by
  apply sortIdx_of_chain
  apply List.Pairwise.chain'
  refine hsorted.imp ?_
  intro a b hab
  apply decide_eq_true
  show ((a : ℚ) - (b : ℚ)) ≤ 0
  have : (a : ℚ) ≤ (b : ℚ) := by exact_mod_cast Nat.le_of_lt hab
  linarith

/-- Looking up the replaced column in the rebuilt column list yields the new
column, whenever the original lookup succeeded. -/
theorem col_map_replace_self (field : String) (nc : List DataValue) :
    ∀ (l : List (String × List DataValue)) (c : String × List DataValue),
      l.find? (fun p => p.1 == field) = some c →
      ((l.map (fun p => if p.1 = field then (p.1, nc) else p)).find?
          (fun p => p.1 == field)).map (fun p => p.2) = some nc := by
  intro l
  induction l with
  | nil =>
    intro c hc
    simp at hc
  | cons p l ih =>
    intro c hc
    by_cases hp : p.1 = field
    · simp only [List.map_cons, List.find?]
      have hb : (((if p.1 = field then (p.1, nc) else p) :
          String × List DataValue).1 == field) = true := by
        rw [if_pos hp]
        exact beq_iff_eq.mpr hp
      rw [hb]
      simp [hp]
    · have hb : (p.1 == field) = false := by
        simp [hp]
      simp only [List.find?] at hc
      rw [hb] at hc
      simp only [List.map_cons, List.find?]
      have h1 : (((if p.1 = field then (p.1, nc) else p) :
          String × List DataValue).1 == field) = false := by
        rw [if_neg hp]
        exact hb
      rw [h1]
      exact ih c hc

/-- Claim C5: for every table, grouping axis and comparator list, and every
group of rows sharing the opposing axis's stringified value, `stack` orders
that group's rows by the supplied comparators (ties falling back to the
original row index) and replaces each finite value of the stacked field,
along that order, by its cumulative [start, end] interval — the running sum
restarts at zero for each group and other groups never interfere — while a
non-finite value is excluded from the running sum and its own entry becomes
null, never zero (the cumulative-interval transform `stackSpecList` follows
the words of the spec). With no comparators a group keeps its original row
order. -/
theorem stack_cumulative_intervals
    (data : DataTable) (byAxis : String) (orders : OrderFns)
    (out : DataTable) (fieldCol newCol : List DataValue)
    (hcol : data.col (if byAxis = "x" then "y" else "x") = some fieldCol)
    (hlen : data.length ≤ fieldCol.length)
    (hout : stack data byAxis orders = some out)
    (hnew : out.col (if byAxis = "x" then "y" else "x") = some newCol)
    (k : JKey) (entry : List Nat)
    (hmem : (k, entry) ∈ groupRows (data.col byAxis) data.length) :
    ((sortIdx (fun i j => decide (stackCompare orders data i j ≤ 0))
          entry).map (fun i => newCol.getD i DataValue.undefV) =
      stackSpecList 0
        ((sortIdx (fun i j => decide (stackCompare orders data i j ≤ 0))
            entry).map (fun i => fieldCol.getD i DataValue.undefV))) ∧
    (orders = [] →
      sortIdx (fun i j => decide (stackCompare orders data i j ≤ 0))
        entry = entry) := by
  obtain ⟨hkeys, hbound, hsort, hdisj⟩ :=
    groupRows_ok (data.col byAxis) data.length
  simp only [stack] at hout
  rw [hcol] at hout
  simp only [Option.some.injEq] at hout
  subst hout
  simp only [DataTable.col] at hcol hnew
  obtain ⟨pc, hpcf, hpc2⟩ := Option.map_eq_some'.mp hcol
  rw [col_map_replace_self (if byAxis = "x" then "y" else "x") _
    data.columns pc hpcf] at hnew
  have hnc := Option.some.inj hnew
  subst hnc
  constructor
  · exact foldl_stack_group
      (fun i j => decide (stackCompare orders data i j ≤ 0))
      (groupRows (data.col byAxis) data.length) fieldCol k entry hmem
      (fun p hp i hi => Nat.lt_of_lt_of_le (hbound p hp i hi) hlen)
      (fun p hp => List.Pairwise.imp (fun h => Nat.ne_of_lt h) (hsort p hp))
      hdisj
  · intro ho
    subst ho
    exact sortIdx_of_sorted_entry data entry (hsort (k, entry) hmem)

theorem col_map_replace (field k : String) (nc : List DataValue)
    (hk : ¬ k = field) :
    ∀ l : List (String × List DataValue),
      ((l.map (fun p => if p.1 = field then (p.1, nc) else p)).find?
          (fun p => p.1 == k)).map (·.2) =
        (l.find? (fun p => p.1 == k)).map (·.2) := by
  intro l
  induction l with
  | nil => rfl
  | cons p l ih =>
    simp only [List.map_cons, List.find?]
    by_cases hp : p.1 = k
    · have hpf : ¬ p.1 = field := by rw [hp]; exact hk
      have hb : (p.1 == k) = true := by simp [hp]
      rw [if_neg hpf, hb]
    · have hb : (p.1 == k) = false := by simp [hp]
      have h1 : (((if p.1 = field then (p.1, nc) else p) :
          String × List DataValue).1 == k) = false := by
        split <;> simp [hp]
      rw [h1, hb]
      simpa using ih

/-- Helper: evaluation of stack on a concrete two-row, two-column table with
no comparators. -/
theorem stack_eval_pair (c0 c1 : DataValue) (y0 y1 : ℚ) :
    stack ⟨2, [("c", [c0, c1]), ("y", [DataValue.num y0, DataValue.num y1])]⟩
      "x" [] =
    some ⟨2, [("c", [c0, c1]),
              ("y", [DataValue.interval 0 y0,
                     DataValue.interval y0 (y0 + y1)])]⟩ := by
  have hle : (decide (stackCompare []
      ⟨2, [("c", [c0, c1]), ("y", [DataValue.num y0, DataValue.num y1])]⟩
      0 1 ≤ 0)) = true :=
    decide_eq_true (by
      show ((0 : Nat) : ℚ) - ((1 : Nat) : ℚ) ≤ 0
      norm_num)
  show some (⟨2, [("c", [c0, c1]), ("y",
      stackLoop
        (sortIdx (fun i j => decide (stackCompare []
          ⟨2, [("c", [c0, c1]), ("y", [DataValue.num y0, DataValue.num y1])]⟩
          i j ≤ 0)) [0, 1])
        0 [DataValue.num y0, DataValue.num y1])]⟩ : DataTable) = _
  rw [sortIdx_pair]
  rw [hle, if_pos rfl]
  simp [stackLoop]

/-- Claim C10: when stack returns a table, that table has the same row count
as the input, the column name list is unchanged, and every column other than
the stacked field (the axis opposite to the given axis argument), including
the grouping column, is returned unchanged. -/
theorem stack_preserves_other_columns
    (data : DataTable) (byAxis : String) (orders : OrderFns) (t : DataTable)
    (h : stack data byAxis orders = some t) :
    t.length = data.length ∧
    t.columns.map Prod.fst = data.columns.map Prod.fst ∧
    ∀ k, k ≠ (if byAxis = "x" then "y" else "x") → t.col k = data.col k := by
  simp only [stack] at h
  cases hcol : data.col (if byAxis = "x" then "y" else "x") with
  | none => rw [hcol] at h; exact absurd h (by simp)
  | some fieldCol =>
    rw [hcol] at h
    simp only [Option.some.injEq] at h
    subst h
    refine ⟨rfl, ?_, ?_⟩
    · rw [List.map_map]
      apply List.map_congr_left
      intro p _
      simp only [Function.comp_apply]
      by_cases hp : p.1 = (if byAxis = "x" then "y" else "x") <;> simp [hp]
    · intro k hk
      simp only [DataTable.col]
      exact col_map_replace _ k _ hk data.columns

/-- Witness for C10 at a concrete two-column table. -/
theorem stack_preserves_other_columns_witness :
    (⟨2, [("c", [DataValue.str "a", DataValue.str "b"]),
          ("y", [DataValue.interval 0 1, DataValue.interval 1 3])]⟩ :
        DataTable).length =
      (⟨2, [("c", [DataValue.str "a", DataValue.str "b"]),
            ("y", [DataValue.num 1, DataValue.num 2])]⟩ : DataTable).length ∧
    (⟨2, [("c", [DataValue.str "a", DataValue.str "b"]),
          ("y", [DataValue.interval 0 1, DataValue.interval 1 3])]⟩ :
        DataTable).columns.map Prod.fst =
      (⟨2, [("c", [DataValue.str "a", DataValue.str "b"]),
            ("y", [DataValue.num 1, DataValue.num 2])]⟩ :
          DataTable).columns.map Prod.fst ∧
    ∀ k, k ≠ (if "x" = "x" then "y" else "x") →
      (⟨2, [("c", [DataValue.str "a", DataValue.str "b"]),
            ("y", [DataValue.interval 0 1, DataValue.interval 1 3])]⟩ :
          DataTable).col k =
        (⟨2, [("c", [DataValue.str "a", DataValue.str "b"]),
              ("y", [DataValue.num 1, DataValue.num 2])]⟩ : DataTable).col k :=
  stack_preserves_other_columns _ "x" [] _ (by
    rw [stack_eval_pair]
    norm_num)

/-- Witness for C5: a four-row table whose grouping column interleaves two
groups; each group accumulates independently in its own order. -/
theorem stack_cumulative_intervals_witness :
    ((sortIdx (fun i j => decide (stackCompare []
          (⟨4, [("x", [DataValue.str "a", DataValue.str "b",
                        DataValue.str "a", DataValue.str "b"]),
                ("y", [DataValue.num 1, DataValue.num 2,
                       DataValue.num 3, DataValue.num 4])]⟩ : DataTable)
          i j ≤ 0)) [0, 2]).map
        (fun i => ([DataValue.interval 0 1, DataValue.interval 0 2,
                    DataValue.interval 1 4,
                    DataValue.interval 2 6]).getD i DataValue.undefV) =
      stackSpecList 0
        ((sortIdx (fun i j => decide (stackCompare []
            (⟨4, [("x", [DataValue.str "a", DataValue.str "b",
                          DataValue.str "a", DataValue.str "b"]),
                  ("y", [DataValue.num 1, DataValue.num 2,
                         DataValue.num 3, DataValue.num 4])]⟩ : DataTable)
            i j ≤ 0)) [0, 2]).map
          (fun i => ([DataValue.num 1, DataValue.num 2,
                      DataValue.num 3, DataValue.num 4]).getD i
            DataValue.undefV))) ∧
    (([] : OrderFns) = [] →
      sortIdx (fun i j => decide (stackCompare []
          (⟨4, [("x", [DataValue.str "a", DataValue.str "b",
                        DataValue.str "a", DataValue.str "b"]),
                ("y", [DataValue.num 1, DataValue.num 2,
                       DataValue.num 3, DataValue.num 4])]⟩ : DataTable)
          i j ≤ 0)) [0, 2] = [0, 2]) :=
  stack_cumulative_intervals
    ⟨4, [("x", [DataValue.str "a", DataValue.str "b",
                DataValue.str "a", DataValue.str "b"]),
         ("y", [DataValue.num 1, DataValue.num 2,
                DataValue.num 3, DataValue.num 4])]⟩
    "x" []
    ⟨4, [("x", [DataValue.str "a", DataValue.str "b",
                DataValue.str "a", DataValue.str "b"]),
         ("y", [DataValue.interval 0 1, DataValue.interval 0 2,
                DataValue.interval 1 4, DataValue.interval 2 6])]⟩
    [DataValue.num 1, DataValue.num 2, DataValue.num 3, DataValue.num 4]
    [DataValue.interval 0 1, DataValue.interval 0 2,
     DataValue.interval 1 4, DataValue.interval 2 6]
    rfl (by decide)
    (by
      have hsA : sortIdx (fun i j => decide (stackCompare []
          (⟨4, [("x", [DataValue.str "a", DataValue.str "b",
                        DataValue.str "a", DataValue.str "b"]),
                ("y", [DataValue.num 1, DataValue.num 2,
                       DataValue.num 3, DataValue.num 4])]⟩ : DataTable)
          i j ≤ 0)) [0, 2] = [0, 2] :=
        sortIdx_of_sorted_entry _ [0, 2] (by decide)
      have hsB : sortIdx (fun i j => decide (stackCompare []
          (⟨4, [("x", [DataValue.str "a", DataValue.str "b",
                        DataValue.str "a", DataValue.str "b"]),
                ("y", [DataValue.num 1, DataValue.num 2,
                       DataValue.num 3, DataValue.num 4])]⟩ : DataTable)
          i j ≤ 0)) [1, 3] = [1, 3] :=
        sortIdx_of_sorted_entry _ [1, 3] (by decide)
      have h1 : stack
          ⟨4, [("x", [DataValue.str "a", DataValue.str "b",
                      DataValue.str "a", DataValue.str "b"]),
               ("y", [DataValue.num 1, DataValue.num 2,
                      DataValue.num 3, DataValue.num 4])]⟩ "x" [] =
          some ⟨4, [("x", [DataValue.str "a", DataValue.str "b",
                           DataValue.str "a", DataValue.str "b"]),
            ("y", stackLoop (sortIdx (fun i j => decide (stackCompare []
                (⟨4, [("x", [DataValue.str "a", DataValue.str "b",
                              DataValue.str "a", DataValue.str "b"]),
                      ("y", [DataValue.num 1, DataValue.num 2,
                             DataValue.num 3, DataValue.num 4])]⟩ :
                  DataTable) i j ≤ 0)) [1, 3]) 0
              (stackLoop (sortIdx (fun i j => decide (stackCompare []
                (⟨4, [("x", [DataValue.str "a", DataValue.str "b",
                              DataValue.str "a", DataValue.str "b"]),
                      ("y", [DataValue.num 1, DataValue.num 2,
                             DataValue.num 3, DataValue.num 4])]⟩ :
                  DataTable) i j ≤ 0)) [0, 2]) 0
                [DataValue.num 1, DataValue.num 2,
                 DataValue.num 3, DataValue.num 4]))]⟩ := rfl
      rw [h1, hsA, hsB]
      norm_num [stackLoop])
    rfl (JKey.jstr "a") [0, 2]
    (show (JKey.jstr "a", [0, 2]) ∈
        [(JKey.jstr "a", [0, 2]), (JKey.jstr "b", [1, 3])] from
      List.mem_cons_self _ _)

theorem extStep_eq_merge (acc : Option (ℚ × ℚ)) (x : ℚ) :
    extStep acc x = extMerge acc (some (x, x)) := by
  match acc with
  | none => rfl
  | some (a, b) => rfl

theorem extMerge_none_right (e : Option (ℚ × ℚ)) : extMerge e none = e := by
  match e with
  | none => rfl
  | some (a, b) => rfl

theorem extMerge_assoc (a b c : Option (ℚ × ℚ)) :
    extMerge (extMerge a b) c = extMerge a (extMerge b c) := by
  match a, b, c with
  | none, _, _ => rfl
  | some (a1, a2), none, _ => rfl
  | some (a1, a2), some (b1, b2), none => rfl
  | some (a1, a2), some (b1, b2), some (c1, c2) =>
    simp [extMerge, min_assoc, max_assoc]

theorem foldl_extStep (l : List ℚ) :
    ∀ acc, l.foldl extStep acc = extMerge acc (listExtent l) := by
  induction l with
  | nil => intro acc; simp [listExtent, extMerge_none_right]
  | cons x l ih =>
    intro acc
    show l.foldl extStep (extStep acc x) = _
    rw [ih (extStep acc x)]
    have h2 : listExtent (x :: l) = extMerge (some (x, x)) (listExtent l) := by
      show l.foldl extStep (extStep none x) = _
      rw [ih (extStep none x)]
      rfl
    rw [h2, extStep_eq_merge, extMerge_assoc]

theorem listExtent_append (xs ys : List ℚ) :
    listExtent (xs ++ ys) = extMerge (listExtent xs) (listExtent ys) := by
  show (xs ++ ys).foldl extStep none = _
  rw [List.foldl_append]
  exact foldl_extStep ys _

theorem foldl_extStep_le :
    ∀ (l : List ℚ) (a b m M : ℚ),
      l.foldl extStep (some (a, b)) = some (m, M) → a ≤ b → m ≤ M := by
  intro l
  induction l with
  | nil =>
    intro a b m M h hab
    simp only [List.foldl_nil, Option.some.injEq, Prod.mk.injEq] at h
    obtain ⟨h1, h2⟩ := h
    subst h1
    subst h2
    exact hab
  | cons x l ih =>
    intro a b m M h hab
    exact ih (min a x) (max b x) m M h
      (le_trans (min_le_left a x) (le_trans hab (le_max_left b x)))

theorem listExtent_le (l : List ℚ) (m M : ℚ)
    (h : listExtent l = some (m, M)) : m ≤ M := by
  match l with
  | [] => simp [listExtent] at h
  | x :: l =>
    exact foldl_extStep_le l x x m M h le_rfl

theorem finiteNums_append (a b : List DataValue) :
    finiteNums (a ++ b) = finiteNums a ++ finiteNums b :=
  List.filterMap_append a b _

theorem flatVals_append (a b : List DataValue) :
    flatVals (a ++ b) = flatVals a ++ flatVals b := by
  simp [flatVals]

theorem listExtent_contrib (vals : List DataValue) :
    listExtent (finiteNums
      [optToDV (finiteExtent vals).1, optToDV (finiteExtent vals).2]) =
    listExtent (finiteNums vals) := by
  cases h : listExtent (finiteNums vals) with
  | none =>
    rw [show finiteExtent vals = (none, none) from by
      unfold finiteExtent; rw [h]]
    rfl
  | some p =>
    obtain ⟨m, M⟩ := p
    have hle := listExtent_le _ m M h
    rw [show finiteExtent vals = (some m, some M) from by
      unfold finiteExtent; rw [h]]
    show extStep (extStep none m) M = some (m, M)
    simp [extStep, min_eq_left hle, max_eq_right hle]

theorem nested_extent_eq (ls : List (List DataValue)) :
    listExtent (finiteNums ((ls.map (fun vals =>
      [optToDV (finiteExtent (flatVals vals)).1,
       optToDV (finiteExtent (flatVals vals)).2])).flatten)) =
    listExtent (finiteNums (flatVals ls.flatten)) := by
  induction ls with
  | nil => rfl
  | cons v ls ih =>
    simp only [List.map_cons, List.flatten_cons, finiteNums_append,
      flatVals_append, listExtent_append]
    rw [listExtent_contrib, ih]

theorem partsExtent_eq (hints : ScaleHints) (data : List (List DataValue)) :
    listExtent (finiteNums ((((hints.domain.getD []) :: data).map (fun vals =>
      [optToDV (finiteExtent (flatVals vals)).1,
       optToDV (finiteExtent (flatVals vals)).2])).flatten)) =
    listExtent (channelFiniteValues hints data) := by
  rw [nested_extent_eq]
  simp [channelFiniteValues, ScaleHints.domainList, List.flatten_cons]

theorem partsFiniteExtent_eq (hints : ScaleHints)
    (data : List (List DataValue)) :
    finiteExtent ((((hints.domain.getD []) :: data).map (fun vals =>
      [optToDV (finiteExtent (flatVals vals)).1,
       optToDV (finiteExtent (flatVals vals)).2])).flatten) =
    (match listExtent (channelFiniteValues hints data) with
     | none => ((none : Option ℚ), (none : Option ℚ))
     | some (m, M) => (some m, some M)) := by
  show (match listExtent (finiteNums ((((hints.domain.getD []) :: data).map
      (fun vals =>
        [optToDV (finiteExtent (flatVals vals)).1,
         optToDV (finiteExtent (flatVals vals)).2])).flatten)) with
    | none => ((none : Option ℚ), (none : Option ℚ))
    | some (m, M) => (some m, some M)) = _
  rw [partsExtent_eq]

/-- Claim C7: on a quantitative channel, inferScale computes the domain as
the finite extent of the hint domain united with all observed channel data;
with no finite value the domain is [0,1]; a single-point domain v expands to
[0,v] for positive v, [v,0] for negative v and [0,1] for v = 0; when the
channel is size or the hints request includeZero the domain is extended to
contain zero without flipping sign; and an explicitly specified spec domain
is returned unchanged, overriding all inference. -/
theorem inferScale_quantitative_domain
    (spec : Scale) (hints : ScaleHints) (data : List (List DataValue))
    (channel : String) (hq : hints.kind = "quantitative") :
    (∀ d, spec.domain = some d →
      (inferScale spec hints data channel).domain = d) ∧
    (spec.domain = none →
        listExtent (channelFiniteValues hints data) = none →
      (inferScale spec hints data channel).domain =
        [DataValue.num 0, DataValue.num 1]) ∧
    (∀ v, spec.domain = none →
        listExtent (channelFiniteValues hints data) = some (v, v) →
      (inferScale spec hints data channel).domain =
        (if 0 < v then [DataValue.num 0, DataValue.num v]
         else if v < 0 then [DataValue.num v, DataValue.num 0]
         else [DataValue.num 0, DataValue.num 1])) ∧
    (∀ lo hi, spec.domain = none →
        listExtent (channelFiniteValues hints data) = some (lo, hi) →
        lo ≠ hi → (channel = "size" ∨ hints.includeZero = some true) →
      (inferScale spec hints data channel).domain =
        (if 0 < lo then [DataValue.num 0, DataValue.num hi]
         else if hi < 0 then [DataValue.num lo, DataValue.num 0]
         else [DataValue.num lo, DataValue.num hi])) ∧
    (∀ lo hi, spec.domain = none →
        listExtent (channelFiniteValues hints data) = some (lo, hi) →
        lo ≠ hi → ¬ (channel = "size" ∨ hints.includeZero = some true) →
      (inferScale spec hints data channel).domain =
        [DataValue.num lo, DataValue.num hi]) := by
  refine ⟨?_, ?_, ?_, ?_, ?_⟩
  · intro d hdm
    simp [inferScale, hq, hdm]
  · intro hdm hE
    simp only [inferScale, if_pos hq]
    rw [partsFiniteExtent_eq, hE]
    norm_num [hdm]
  · intro v hdm hE
    simp only [inferScale, if_pos hq]
    rw [partsFiniteExtent_eq, hE]
    by_cases h1 : (0 : ℚ) < v
    · simp [hdm, h1, asymm h1, ne_of_gt h1, lt_irrefl]
    · by_cases h2 : v < 0
      · simp [hdm, h1, h2, asymm h2, ne_of_lt h2, lt_irrefl]
      · have hv0 : v = 0 := le_antisymm (not_lt.mp h1) (not_lt.mp h2)
        subst hv0
        norm_num [hdm]
  · intro lo hi hdm hE hne hiz
    simp only [inferScale, if_pos hq]
    rw [partsFiniteExtent_eq, hE]
    by_cases h1 : (0 : ℚ) < lo
    · simp [hdm, hne, hiz, h1, asymm h1, lt_irrefl,
        not_lt.mpr (le_of_lt (lt_of_lt_of_le h1 (listExtent_le _ _ _ hE)))]
    · by_cases h2 : hi < 0
      · have hlo : lo < 0 := lt_of_le_of_lt (listExtent_le _ _ _ hE) h2
        simp [hdm, hne, hiz, h1, h2, hlo, asymm hlo, lt_irrefl]
      · simp [hdm, hne, hiz, h1, h2]
  · intro lo hi hdm hE hne hiz
    simp only [inferScale, if_pos hq]
    rw [partsFiniteExtent_eq, hE]
    simp [hdm, hne, hiz]

/-- Witness for C7: the includeZero conjunct at a concrete input. -/
theorem inferScale_quantitative_domain_witness :
    (inferScale {}
      ⟨"quantitative", none, some [DataValue.num 1, DataValue.num 5],
        none, some true, none, none⟩ [] "x").domain =
      (if (0 : ℚ) < 1 then [DataValue.num 0, DataValue.num 5]
       else if (5 : ℚ) < 0 then [DataValue.num 1, DataValue.num 0]
       else [DataValue.num 1, DataValue.num 5]) :=
  (inferScale_quantitative_domain {}
    ⟨"quantitative", none, some [DataValue.num 1, DataValue.num 5],
      none, some true, none, none⟩ [] "x" rfl).2.2.2.1 1 5 rfl
    (by
      show extStep (extStep none 1) 5 = some (1, 5)
      norm_num [extStep])
    (by norm_num) (Or.inr rfl)

/-- Claim C8: mergeScaleHints is commutative and associative with respect to
membership in the resulting domain. -/
theorem mergeScaleHints_domain_comm_assoc (a b c : ScaleHints) (v : DataValue) :
    (v ∈ (mergeScaleHints a b).domainList ↔
      v ∈ (mergeScaleHints b a).domainList) ∧
    (v ∈ (mergeScaleHints (mergeScaleHints a b) c).domainList ↔
      v ∈ (mergeScaleHints a (mergeScaleHints b c)).domainList) := by
  constructor <;>
    simp [mergeScaleHints, ScaleHints.domainList, List.mem_append, or_comm,
      or_assoc]

theorem otherLabel_ne_null (n : Nat) : otherLabel n ≠ "(null)" := by
  intro h
  have hlen : (otherLabel n).length = ("(null)" : String).length := by rw [h]
  have h1 : (otherLabel n).length =
      ("(" : String).length + (toString n).length +
        (" others)" : String).length := by
    simp [otherLabel, String.length_append]
  rw [h1] at hlen
  rw [show ("(" : String).length = 1 from rfl,
    show (" others)" : String).length = 8 from rfl,
    show ("(null)" : String).length = 6 from rfl] at hlen
  omega

/-- Characterization of the nominal branch of inferAggregate through the
clipping step. -/
theorem inferAggregate_nominal_eq (fexpr : Expr) (nom : NomStats)
    (bc : Option Nat) :
    ∃ info,
      inferAggregate ⟨fexpr, none, some nom⟩ none bc = some info ∧
      info.scale.domain = (nominalClip nom (bc.getD 15)).levels.map
        (fun l => DataValue.str l.value) ∧
      info.scale.specialValues = some
        ((if 0 < (nominalClip nom (bc.getD 15)).otherCount then
            [otherLabel (nominalClip nom (bc.getD 15)).numOtherLevels]
          else []) ++
         (if 0 < (nominalClip nom (bc.getD 15)).nullCount then ["(null)"]
          else [])) :=
  ⟨_, rfl, rfl, rfl⟩

/-- Counterexample for C3 as stated: with binCount 1, listed levels a:10 and
b:3, and 5 rows in levels beyond the listed ones, the clipping step of the
nominal branch replaces otherCount with 3 — the sum over the clipped-off
listed levels only — and not with 3 + 5, so the rows of the levels beyond
the listed top levels are not counted; the "(3 others)" label the aggregate
produces shows the discrepancy with its otherCount. -/
theorem inferAggregate_nominal_otherCount_counterexample :
    (nominalClip ⟨[⟨"a", 10⟩, ⟨"b", 3⟩], 2, 5, 0⟩ 1).otherCount = 3 ∧
    (nominalClip ⟨[⟨"a", 10⟩, ⟨"b", 3⟩], 2, 5, 0⟩ 1).otherCount ≠ 3 + 5 ∧
    (inferAggregate
        ⟨Expr.column "f", none, some ⟨[⟨"a", 10⟩, ⟨"b", 3⟩], 2, 5, 0⟩⟩
        none (some 1)).map (fun i => i.scale.specialValues) =
      some (some ["(3 others)"]) :=
  ⟨by decide, by decide, rfl⟩

/-- Claim C3 (amended): for nominal stats with more listed levels than
binCount, inferAggregate keeps the first binCount levels (the most frequent,
given that the stats levels are count-descending) as the band domain;
numOtherLevels becomes totalDistinct minus binCount (totalDistinct being the
listed plus unlisted distinct levels), the N of the "(N others)" label;
otherCount becomes the sum of the counts of the clipped-off listed levels
only — the rows of levels beyond the top listed levels are not included; and
specialValues contains the others label iff that otherCount is positive and
"(null)" iff nullCount is positive. -/
theorem inferAggregate_nominal_clip (fexpr : Expr) (nom : NomStats)
    (binCount : Nat) (hgt : binCount < nom.levels.length) :
    ∃ info,
      inferAggregate ⟨fexpr, none, some nom⟩ none (some binCount) =
        some info ∧
      info.scale.domain =
        (nom.levels.take binCount).map (fun l => DataValue.str l.value) ∧
      (nominalClip nom binCount).numOtherLevels =
        (nom.levels.length + nom.numOtherLevels) - binCount ∧
      (nominalClip nom binCount).otherCount =
        (nom.levels.drop binCount).foldl (fun a b => a + b.count) 0 ∧
      info.scale.specialValues = some
        ((if 0 < (nominalClip nom binCount).otherCount then
            [otherLabel
              ((nom.levels.length + nom.numOtherLevels) - binCount)]
          else []) ++
         (if 0 < nom.nullCount then ["(null)"] else [])) ∧
      (otherLabel ((nom.levels.length + nom.numOtherLevels) - binCount) ∈
          (info.scale.specialValues.getD []) ↔
        0 < (nominalClip nom binCount).otherCount) ∧
      ("(null)" ∈ (info.scale.specialValues.getD []) ↔ 0 < nom.nullCount) ∧
      (nom.levels.Pairwise (fun a b => b.count ≤ a.count) →
        ∀ l1 ∈ nom.levels.take binCount, ∀ l2 ∈ nom.levels.drop binCount,
          l2.count ≤ l1.count) := by
  obtain ⟨info, heq, hdom, hsv⟩ :=
    inferAggregate_nominal_eq fexpr nom (some binCount)
  simp only [Option.getD_some] at hdom hsv
  have hclip : nominalClip nom binCount =
      { levels := nom.levels.take binCount
        numOtherLevels :=
          nom.numOtherLevels + (nom.levels.length - binCount)
        otherCount := (nom.levels.drop binCount).foldl
          (fun a b => a + b.count) 0
        nullCount := nom.nullCount } := by
    simp [nominalClip, hgt]
  have hnum : (nominalClip nom binCount).numOtherLevels =
      (nom.levels.length + nom.numOtherLevels) - binCount := by
    rw [hclip]
    show nom.numOtherLevels + (nom.levels.length - binCount) = _
    omega
  have hnull : (nominalClip nom binCount).nullCount = nom.nullCount := by
    rw [hclip]
  have hsv2 : info.scale.specialValues = some
      ((if 0 < (nominalClip nom binCount).otherCount then
          [otherLabel ((nom.levels.length + nom.numOtherLevels) - binCount)]
        else []) ++
       (if 0 < nom.nullCount then ["(null)"] else [])) := by
    rw [hsv, hnum]
    simp only [hnull]
  refine ⟨info, heq, ?_, hnum, ?_, hsv2, ?_, ?_, ?_⟩
  · rw [hdom, hclip]
  · rw [hclip]
  · rw [hsv2]
    by_cases hoc : 0 < (nominalClip nom binCount).otherCount <;>
      by_cases hnc : 0 < nom.nullCount <;>
      simp [hoc, hnc, otherLabel_ne_null _]
  · rw [hsv2]
    by_cases hoc : 0 < (nominalClip nom binCount).otherCount <;>
      by_cases hnc : 0 < nom.nullCount <;>
      simp [hoc, hnc, Ne.symm (otherLabel_ne_null _)]
  · intro hsort l1 h1 l2 h2
    have hsplit := List.take_append_drop binCount nom.levels
    rw [← hsplit] at hsort
    exact (List.pairwise_append.mp hsort).2.2 l1 h1 l2 h2

/-- Witness for C3 at the stats of scenario 2. -/
theorem inferAggregate_nominal_clip_witness :
    ∃ info,
      inferAggregate
          ⟨Expr.column "f", none, some ⟨[⟨"a", 3⟩, ⟨"b", 2⟩], 1, 1, 1⟩⟩
          none (some 1) =
        some info ∧
      info.scale.domain = [DataValue.str "a"] ∧
      info.scale.specialValues = some [otherLabel 2, "(null)"] := by
  obtain ⟨info, heq, hdom, _, _, hsv, _, _, _⟩ :=
    inferAggregate_nominal_clip (Expr.column "f")
      ⟨[⟨"a", 3⟩, ⟨"b", 2⟩], 1, 1, 1⟩ 1 (by decide)
  refine ⟨info, heq, by simpa using hdom, ?_⟩
  rw [hsv]
  norm_num [nominalClip]

/-- Claim C4, code evaluation at the failing input (log scale, finite values
{0, 5}, no non-finite rows): the spec qualifying condition for the "n/a"
bucket holds — a non-positive finite value exists on a log scale — and the
select expression indeed routes the 0-valued rows into the null bin (the
guard requires the input to be finite AND strictly positive) whose display
value is "n/a", yet the scale lists no "n/a" special value, because the code
tests min < 0 instead of min <= 0. -/
theorem inferAggregate_log_zero_na_bug :
    specQualifyingNA ⟨2, 0, 5, 5/2, 5/2, 5, 0⟩ "log" ∧
    (inferAggregate ⟨Expr.column "f", some ⟨2, 0, 5, 5/2, 5/2, 5, 0⟩, none⟩
        (some "log") (some 20)).map (fun i => i.scale.specialValues) =
      some (some []) ∧
    (inferAggregate ⟨Expr.column "f", some ⟨2, 0, 5, 5/2, 5/2, 5, 0⟩, none⟩
        (some "log") (some 20)).map (fun i => i.field DataValue.null) =
      some (DataValue.str "n/a") ∧
    (inferAggregate ⟨Expr.column "f", some ⟨2, 0, 5, 5/2, 5/2, 5, 0⟩, none⟩
        (some "log") (some 20)).map (fun i => i.select) =
      some (Expr.condE
        (Expr.andL [Expr.isFiniteE (Expr.castE (Expr.column "f") "DOUBLE"),
          Expr.gtE (Expr.castE (Expr.column "f") "DOUBLE") (Expr.litNum 0)])
        (Expr.floorE (Expr.mulE
          (Expr.subE (Expr.castE (Expr.column "f") "DOUBLE")
            (Expr.litNum 0))
          (Expr.litNum (1 / 1))))
        Expr.litNull) := by
  refine ⟨Or.inr ⟨rfl, by norm_num, le_rfl⟩, ?_, rfl, rfl⟩
  have hna : ¬ (0 < (0 : Nat) ∨ ((("log" : String) = "log") ∧
      ((0 : ℚ) < 0))) := by
    norm_num
  simp [inferAggregate, inferBinning, hna]

/-- Counterexample for C6 as stated: shift-clicking the selected "x" does
transition the selection to [], but the clause then written for the empty
selection has the empty disjunction node SQL.or() as its predicate, which is
not null. -/
theorem countPlot_empty_predicate_counterexample :
    toggleSelection (some [DataValue.str "x"]) (DataValue.str "x") true =
      some [] ∧
    (inferAggregate ⟨Expr.column "f", none, some ⟨[⟨"x", 3⟩], 0, 0, 0⟩⟩ none
        (some 10)).map
      (fun info =>
        (countPlotClause 1 info.predicate (some [])).predicate) =
      some (some (Expr.orL [])) ∧
    (some (Expr.orL []) : Option Expr) ≠ none :=
  ⟨rfl, rfl, by simp⟩

/-- Claim C6 (amended): in the count plot over a nominal field,
shift-clicking the single currently selected value transitions the selection
state from that one-element selection to the empty array, and the clause
then written to the shared filter for the empty selection carries the empty
disjunction SQL.or() as its predicate — a defined node, not null — together
with the empty array as its value. -/
theorem countPlot_empty_selection_clause (v : DataValue) (fexpr : Expr)
    (nom : NomStats) (binCount : Option Nat) (client : Nat)
    (info : AggregateInfo)
    (hinfo : inferAggregate ⟨fexpr, none, some nom⟩ none binCount =
      some info) :
    toggleSelection (some [v]) v true = some [] ∧
    (countPlotClause client info.predicate (some [])).predicate =
      some (Expr.orL []) ∧
    (countPlotClause client info.predicate (some [])).value = some [] := by
  refine ⟨?_, ?_, ?_⟩
  · simp [toggleSelection, isSame]
  · simp only [inferAggregate, Option.some.injEq] at hinfo
    subst hinfo
    rfl
  · rfl

/-- Witness for C6 at a concrete one-level nominal aggregate. -/
theorem countPlot_empty_selection_clause_witness :
    toggleSelection (some [DataValue.str "x"]) (DataValue.str "x") true =
      some [] ∧
    (countPlotClause 1
        ((inferAggregate
            ⟨Expr.column "f", none, some ⟨[⟨"x", 3⟩], 0, 0, 0⟩⟩ none
            (some 10)).get rfl).predicate (some [])).predicate =
      some (Expr.orL []) ∧
    (countPlotClause 1
        ((inferAggregate
            ⟨Expr.column "f", none, some ⟨[⟨"x", 3⟩], 0, 0, 0⟩⟩ none
            (some 10)).get rfl).predicate (some [])).value = some [] :=
  countPlot_empty_selection_clause (DataValue.str "x") (Expr.column "f")
    ⟨[⟨"x", 3⟩], 0, 0, 0⟩ (some 10) 1 _
    (@Option.some_get _
      (inferAggregate ⟨Expr.column "f", none, some ⟨[⟨"x", 3⟩], 0, 0, 0⟩⟩
        none (some 10)) rfl).symm

/-- One unfolding step of the subscription body. -/
theorem fireAux_cons (clients : List Nat)
    (st : Option (String → Option BrushValue)) (i : Nat)
    (sel : SelectionOutput) (rest : List SelectionOutput) (s : RunState) :
    fireAux clients st i (sel :: rest) s =
      ((fireAux clients st (i + 1) rest
          (fireStep clients i sel (st.bind (fun f => f sel.key)) s).1).1,
        (fireStep clients i sel (st.bind (fun f => f sel.key)) s).2 ++
          (fireAux clients st (i + 1) rest
            (fireStep clients i sel
              (st.bind (fun f => f sel.key)) s).1).2) := rfl

/-- Every event the subscription emits on the undefined state is a clearing
filter update, as long as every selection clause of an undefined value is
undefined. -/
theorem fireAux_none_events (clients : List Nat) :
    ∀ (rest : List SelectionOutput) (i : Nat) (s : RunState),
      (∀ sel ∈ rest, sel.clause none = none) →
      ∀ e ∈ (fireAux clients none i rest s).2,
        ∃ c, e = REvent.update c ∧ clearingClause c := by
  intro rest
  induction rest with
  | nil =>
    intro i s _ e he
    simp [fireAux] at he
  | cons sel rest ih =>
    intro i s h e he
    rw [fireAux_cons] at he
    simp only [Option.none_bind, List.mem_append] at he
    cases he with
    | inl h1 =>
      rw [fireStep] at h1
      by_cases hskip : s.currentClause = some (i, (none : Option BrushValue))
      · rw [if_pos hskip] at h1
        simp at h1
      · rw [if_neg hskip] at h1
        simp only [List.mem_singleton] at h1
        refine ⟨mkClause clients (sel.clause none), h1, ?_⟩
        rw [h sel (List.mem_cons_self _ _)]
        exact ⟨rfl, rfl⟩
    | inr h2 =>
      exact ih (i + 1) _ (fun x hx => h x (List.mem_cons_of_mem _ hx)) e h2

/-- After firing on the undefined state, the clause standing in the shared
filter is either unchanged (and then the loop was empty or skipped its first
selection on a matching memo) or a clearing clause. -/
theorem fireAux_none_final (clients : List Nat) :
    ∀ (rest : List SelectionOutput) (i : Nat) (s : RunState),
      (∀ sel ∈ rest, sel.clause none = none) →
      (((fireAux clients none i rest s).1.filterClause = s.filterClause ∧
          (rest = [] ∨
            s.currentClause = some (i, (none : Option BrushValue)))) ∨
        ∃ c, (fireAux clients none i rest s).1.filterClause = some c ∧
          clearingClause c) := by
  intro rest
  induction rest with
  | nil =>
    intro i s _
    exact Or.inl ⟨rfl, Or.inl rfl⟩
  | cons sel rest ih =>
    intro i s h
    by_cases hskip : s.currentClause = some (i, (none : Option BrushValue))
    · have hstep : fireStep clients i sel none s = (s, []) := by
        rw [fireStep, if_pos hskip]
      have hrec := ih (i + 1) s (fun x hx => h x (List.mem_cons_of_mem _ hx))
      simp only [fireAux_cons, Option.none_bind, hstep]
      rcases hrec with ⟨hfc, _⟩ | hcl
      · exact Or.inl ⟨hfc, Or.inr hskip⟩
      · exact Or.inr hcl
    · have hcl0 : sel.clause none = none := h sel (List.mem_cons_self _ _)
      have hstep : fireStep clients i sel none s =
          ({ currentClause := some (i, (none : Option BrushValue)),
             filterClause := some (mkClause clients none) },
           [REvent.update (mkClause clients none)]) := by
        rw [fireStep, if_neg hskip, hcl0]
      have hrec := ih (i + 1)
        { currentClause := some (i, (none : Option BrushValue)),
          filterClause := some (mkClause clients none) }
        (fun x hx => h x (List.mem_cons_of_mem _ hx))
      simp only [fireAux_cons, Option.none_bind, hstep]
      rcases hrec with ⟨hfc, _⟩ | hcl
      · exact Or.inr ⟨mkClause clients none, by rw [hfc], ⟨rfl, rfl⟩⟩
      · exact Or.inr hcl

/-- The subscription body preserves the memo invariant. -/
theorem fireAux_inv (clients : List Nat) (sels : List SelectionOutput)
    (st : Option (String → Option BrushValue)) :
    ∀ (rest : List SelectionOutput) (i : Nat) (s : RunState),
      sels.drop i = rest → RunInv clients sels s →
      RunInv clients sels (fireAux clients st i rest s).1 := by
  intro rest
  induction rest with
  | nil =>
    intro i s _ hinv
    exact hinv
  | cons sel rest ih =>
    intro i s hdrop hinv
    have hget : sels.get? i = some sel := by
      have h0 : (sels.drop i).get? 0 = some sel := by rw [hdrop]; rfl
      rwa [List.get?_drop, Nat.add_zero] at h0
    have hdrop2 : sels.drop (i + 1) = rest := by
      have h1 : (sels.drop i).drop 1 = rest := by rw [hdrop]; rfl
      rw [List.drop_drop] at h1
      exact h1
    have hfa : (fireAux clients st i (sel :: rest) s).1 =
        (fireAux clients st (i + 1) rest
          (fireStep clients i sel (st.bind (fun f => f sel.key)) s).1).1 := by
      rw [fireAux_cons]
    rw [hfa]
    by_cases hskip :
        s.currentClause = some (i, st.bind (fun f => f sel.key))
    · rw [show (fireStep clients i sel (st.bind (fun f => f sel.key)) s).1 =
          s from by rw [fireStep, if_pos hskip]]
      exact ih (i + 1) s hdrop2 hinv
    · rw [show (fireStep clients i sel (st.bind (fun f => f sel.key)) s).1 =
          { currentClause := some (i, st.bind (fun f => f sel.key)),
            filterClause :=
              some (mkClause clients
                (sel.clause (st.bind (fun f => f sel.key)))) } from by
        rw [fireStep, if_neg hskip]]
      exact ih (i + 1) _ hdrop2
        (Or.inr ⟨i, st.bind (fun f => f sel.key), sel, hget, rfl, rfl⟩)

/-- Claim C1: running the cleanup of ChartRuntime.setSpec from any
subscription state reachable in the epoch writes only clearing clauses,
every such filter update happens before any query client is destroyed, and
afterwards the clause standing in the shared filter is absent or clearing —
whenever the clause of an undefined selection value is undefined. -/
theorem chartRuntime_cleanup_clears (clients : List Nat)
    (sels : List SelectionOutput)
    (hspec : ∀ sel ∈ sels, sel.clause none = none)
    (sts : List (Option (String → Option BrushValue))) :
    (∀ e ∈ (cleanupTrace clients sels (runFires clients sels sts)).2,
        ∀ c, e = REvent.update c → clearingClause c) ∧
    (∀ p q c id,
        (cleanupTrace clients sels (runFires clients sels sts)).2.get? p =
          some (REvent.update c) →
        (cleanupTrace clients sels (runFires clients sels sts)).2.get? q =
          some (REvent.destroyClient id) →
        p < q) ∧
    ((cleanupTrace clients sels
          (runFires clients sels sts)).1.filterClause = none ∨
      ∃ c, (cleanupTrace clients sels
            (runFires clients sels sts)).1.filterClause = some c ∧
        clearingClause c) := by
  have hinv : RunInv clients sels (runFires clients sels sts) := by
    have haux : ∀ (l : List (Option (String → Option BrushValue)))
        (s0 : RunState), RunInv clients sels s0 →
        RunInv clients sels
          (l.foldl (fun s st => (fire clients sels st s).1) s0) := by
      intro l
      induction l with
      | nil =>
        intro s0 h0
        exact h0
      | cons st l ih =>
        intro s0 h0
        rw [List.foldl_cons]
        exact ih _ (fireAux_inv clients sels st sels 0 s0 rfl h0)
    exact haux sts {} (Or.inl ⟨rfl, rfl⟩)
  have hev := fireAux_none_events clients sels 0
    (runFires clients sels sts) hspec
  have htr2 : (cleanupTrace clients sels (runFires clients sels sts)).2 =
      (fireAux clients none 0 sels (runFires clients sels sts)).2 ++
        clients.map REvent.destroyClient := rfl
  have htr1 : (cleanupTrace clients sels (runFires clients sels sts)).1 =
      (fireAux clients none 0 sels (runFires clients sels sts)).1 := rfl
  refine ⟨?_, ?_, ?_⟩
  · intro e he c hec
    rw [htr2, List.mem_append] at he
    cases he with
    | inl h1 =>
      obtain ⟨c2, hc2, hcl⟩ := hev e h1
      rw [hec] at hc2
      cases hc2
      exact hcl
    | inr h2 =>
      obtain ⟨id2, _, hid⟩ := List.mem_map.mp h2
      rw [hec] at hid
      cases hid
  · intro p q c id hp hq
    rw [htr2] at hp hq
    by_cases hpL : p <
        (fireAux clients none 0 sels (runFires clients sels sts)).2.length
    · by_cases hqL : q <
          (fireAux clients none 0 sels (runFires clients sels sts)).2.length
      · exfalso
        have hq2 : (fireAux clients none 0 sels
            (runFires clients sels sts)).2.get? q =
            some (REvent.destroyClient id) := by
          rw [← hq]
          exact (List.get?_append hqL).symm
        obtain ⟨c2, hc2, _⟩ := hev _ (List.get?_mem hq2)
        cases hc2
      · exact Nat.lt_of_lt_of_le hpL (Nat.le_of_not_lt hqL)
    · exfalso
      have hp2 : (clients.map REvent.destroyClient).get?
          (p - (fireAux clients none 0 sels
            (runFires clients sels sts)).2.length) =
          some (REvent.update c) := by
        rw [← hp]
        exact (List.get?_append_right (Nat.le_of_not_lt hpL)).symm
      obtain ⟨a, _, ha⟩ := List.mem_map.mp (List.get?_mem hp2)
      cases ha
  · rw [htr1]
    have hfin := fireAux_none_final clients sels 0
      (runFires clients sels sts) hspec
    rcases hfin with ⟨hfc, hrest⟩ | ⟨c, hc, hcl⟩
    · rcases hrest with hnil | hcc
      · subst hnil
        rcases hinv with ⟨_, hfcn⟩ | ⟨i, v, sel, hget, _, _⟩
        · left
          rw [hfc]
          exact hfcn
        · simp at hget
      · rcases hinv with ⟨hccn, _⟩ | ⟨i, v, sel, hget, hcc2, hfc2⟩
        · rw [hccn] at hcc
          cases hcc
        · rw [hcc2] at hcc
          have hiv : i = 0 ∧ v = none := by simpa using hcc
          right
          refine ⟨mkClause clients (sel.clause v), ?_, ?_⟩
          · rw [hfc]
            exact hfc2
          · rw [hiv.2, hspec sel (List.get?_mem hget)]
            exact ⟨rfl, rfl⟩
    · exact Or.inr ⟨c, hc, hcl⟩

/-- Witness for C1: one brush selection, one state fire, two query
clients. -/
theorem chartRuntime_cleanup_clears_witness :
    (∀ e ∈ (cleanupTrace [5, 6]
        (selectionOutputs [("brush", "x")] (fun _ => none))
        (runFires [5, 6]
          (selectionOutputs [("brush", "x")] (fun _ => none))
          [some (fun _ => some {})])).2,
        ∀ c, e = REvent.update c → clearingClause c) ∧
    (∀ p q c id,
        (cleanupTrace [5, 6]
          (selectionOutputs [("brush", "x")] (fun _ => none))
          (runFires [5, 6]
            (selectionOutputs [("brush", "x")] (fun _ => none))
            [some (fun _ => some {})])).2.get? p =
          some (REvent.update c) →
        (cleanupTrace [5, 6]
          (selectionOutputs [("brush", "x")] (fun _ => none))
          (runFires [5, 6]
            (selectionOutputs [("brush", "x")] (fun _ => none))
            [some (fun _ => some {})])).2.get? q =
          some (REvent.destroyClient id) →
        p < q) ∧
    ((cleanupTrace [5, 6]
        (selectionOutputs [("brush", "x")] (fun _ => none))
        (runFires [5, 6]
          (selectionOutputs [("brush", "x")] (fun _ => none))
          [some (fun _ => some {})])).1.filterClause = none ∨
      ∃ c, (cleanupTrace [5, 6]
          (selectionOutputs [("brush", "x")] (fun _ => none))
          (runFires [5, 6]
            (selectionOutputs [("brush", "x")] (fun _ => none))
            [some (fun _ => some {})])).1.filterClause = some c ∧
        clearingClause c) :=
  chartRuntime_cleanup_clears [5, 6]
    (selectionOutputs [("brush", "x")] (fun _ => none))
    (by
      intro sel hsel
      simp [selectionOutputs] at hsel
      subst hsel
      rfl)
    [some (fun _ => some {})]

/-- Claim C9: an aggregate encoding whose aggregate (min, max, mean, median,
stdev, variance, sum, product, quantile, or ecdf-value) lacks the required
field logs a warning and resolves to undefined, as does an unknown aggregate
name; the offending encoding is dropped from the layer select entries while
the rest of the layer continues; count and ecdf-rank need no field and
resolve successfully without one. -/
theorem buildEncoding_field_requirements
    (stats : SQLField → Option FieldStats)
    (sst : String → Option String) (channel : Option String)
    (q : Option ℚ) (n : Option String) (flag : Bool) :
    (∀ s ∈ (["min", "max", "mean", "median", "stdev", "variance", "sum",
        "product", "quantile", "ecdf-value"] : List String),
      buildEncoding stats sst channel (.agg (.named s) none q n) flag =
        (none, ["Invalid spec: aggregate requires a field"])) ∧
    (∀ s field, s ∉ (["count", "ecdf-value", "ecdf-rank"] ++
        numericalAggregateNames) →
      buildEncoding stats sst channel (.agg (.named s) field q n) flag =
        (none, ["Invalid spec: unknown aggregate"])) ∧
    ((buildEncoding stats sst channel (.agg (.named "count") none q n)
        flag).1.map (fun r => r.select) = some (some Expr.count) ∧
      (buildEncoding stats sst channel (.agg (.named "count") none q n)
        flag).2 = []) ∧
    ((buildEncoding stats sst channel (.agg (.named "ecdf-rank") none q n)
        flag).1.map (fun r => r.select) = some (some Expr.ecdfRankSelect) ∧
      (buildEncoding stats sst channel (.agg (.named "ecdf-rank") none q n)
        flag).2 = []) ∧
    (∀ (xs ys : List (String × Encoding)) (attr : String) (bad : Encoding),
      (buildEncoding stats sst (channelForAttribute attr) bad flag).1 =
        none →
      layerSelectEntries stats sst flag (xs ++ (attr, bad) :: ys) =
        layerSelectEntries stats sst flag (xs ++ ys)) := by
  refine ⟨?_, ?_, ⟨rfl, rfl⟩, ⟨rfl, rfl⟩, ?_⟩
  · intro s hs
    fin_cases hs <;> rfl
  · intro s field hs
    have h1 : ¬ s = "count" := fun h => hs (by simp [h])
    have h2 : ¬ s = "ecdf-value" := fun h => hs (by simp [h])
    have h3 : ¬ s = "ecdf-rank" := fun h => hs (by simp [h])
    have h4 : ¬ (numericalAggregateNames.contains s = true) := by
      intro hc
      exact hs (by
        rw [List.mem_append]
        right
        exact List.mem_of_elem_eq_true hc)
    simp only [buildEncoding]
    rw [if_neg h1, if_neg h2, if_neg h3, if_neg h4]
  · intro xs ys attr bad hbad
    simp only [layerSelectEntries]
    suffices haux : ∀ (l1 : List (String × Encoding))
        (acc : List (String × Expr)),
        List.foldl
          (fun acc p =>
            match (buildEncoding stats sst (channelForAttribute p.1)
                p.2 flag).1 with
            | none => acc
            | some r =>
              match r.select with
              | some sel => acc ++ [(p.1, sel)]
              | none => acc)
          acc (l1 ++ (attr, bad) :: ys) =
        List.foldl
          (fun acc p =>
            match (buildEncoding stats sst (channelForAttribute p.1)
                p.2 flag).1 with
            | none => acc
            | some r =>
              match r.select with
              | some sel => acc ++ [(p.1, sel)]
              | none => acc)
          acc (l1 ++ ys) by
      exact haux xs []
    intro l1
    induction l1 with
    | nil =>
      intro acc
      simp only [List.nil_append, List.foldl_cons, hbad]
    | cons p l1 ih =>
      intro acc
      simp only [List.cons_append, List.foldl_cons]
      exact ih _

/-- Witness for C9: a field-less min aggregate and an unknown aggregate
name both resolve to undefined with a warning. -/
theorem buildEncoding_field_requirements_witness :
    buildEncoding (fun _ => none) (fun _ => none) none
        (.agg (.named "min") none none none) false =
      (none, ["Invalid spec: aggregate requires a field"]) ∧
    buildEncoding (fun _ => none) (fun _ => none) none
        (.agg (.named "frobnicate") none none none) false =
      (none, ["Invalid spec: unknown aggregate"]) :=
  ⟨(buildEncoding_field_requirements (fun _ => none) (fun _ => none) none
      none none false).1 "min" (by simp),
   (buildEncoding_field_requirements (fun _ => none) (fun _ => none) none
      none none false).2.1 "frobnicate" none (by decide)⟩

/-- Claim C2: when setSpec(specA) is suspended awaiting its statistics and a
non-deep-equal setSpec(specB) runs before that computation completes, the
stale completion of specA is discarded — the identity of specA no longer
matches the currently active spec — and nothing derived from specA is ever
published. -/
theorem setSpec_stale_completion_discarded (deepEq : Nat → Nat → Bool)
    (hrefl : ∀ x, deepEq x x = true) (rt0 : RTState) (a b : Nat)
    (ha : (setSpecStart deepEq rt0 a).2 = true)
    (hne : deepEq b a = false) (hfresh : a ∉ rt0.published) :
    (setSpecStart deepEq (setSpecStart deepEq rt0 a).1 b).2 = true ∧
    ((setSpecStart deepEq (setSpecStart deepEq rt0 a).1 b).1).spec =
      some b ∧
    setSpecComplete
        (setSpecStart deepEq (setSpecStart deepEq rt0 a).1 b).1 a =
      (setSpecStart deepEq (setSpecStart deepEq rt0 a).1 b).1 ∧
    a ∉ (setSpecComplete
        (setSpecStart deepEq (setSpecStart deepEq rt0 a).1 b).1
        a).published := by
  have hA : (setSpecStart deepEq rt0 a).1 =
      { spec := some a, published := rt0.published } := by
    by_cases hg : (match rt0.spec with
        | some t => deepEq a t
        | none => false) = true
    · rw [show setSpecStart deepEq rt0 a = (rt0, false) from by
        simp [setSpecStart, hg]] at ha
      cases ha
    · simp [setSpecStart, hg]
  have hba : b ≠ a := by
    intro h
    rw [h, hrefl a] at hne
    cases hne
  rw [hA]
  have hB : setSpecStart deepEq
      { spec := some a, published := rt0.published } b =
      ({ spec := some b, published := rt0.published }, true) := by
    simp [setSpecStart, hne]
  rw [hB]
  have hC : setSpecComplete
      { spec := some b, published := rt0.published } a =
      { spec := some b, published := rt0.published } := by
    simp [setSpecComplete, hba]
  exact ⟨rfl, rfl, hC, by rw [hC]; exact hfresh⟩

/-- Witness for C2 at concrete spec identities. -/
theorem setSpec_stale_completion_discarded_witness :
    (setSpecStart (fun x y => x == y)
      (setSpecStart (fun x y => x == y) {} 1).1 2).2 = true ∧
    ((setSpecStart (fun x y => x == y)
      (setSpecStart (fun x y => x == y) {} 1).1 2).1).spec = some 2 ∧
    setSpecComplete
        (setSpecStart (fun x y => x == y)
          (setSpecStart (fun x y => x == y) {} 1).1 2).1 1 =
      (setSpecStart (fun x y => x == y)
        (setSpecStart (fun x y => x == y) {} 1).1 2).1 ∧
    1 ∉ (setSpecComplete
        (setSpecStart (fun x y => x == y)
          (setSpecStart (fun x y => x == y) {} 1).1 2).1 1).published :=
  setSpec_stale_completion_discarded (fun x y => x == y)
    (fun x => by simp) {} 1 2 (by decide) (by decide) (by simp)

end EmbeddingAtlas
